import Mathlib

/-!
Verification of the dungeon-generation and navigation core of the Hades
repository against its natural-language specification.

The Lean definitions below are shallow embeddings of the Python source:

* `src/src/hades/generation/primitives.py` (Point, Rect, center, distance),
* `src/src/hades/generation/map.py` (constants generation, BSP splitting,
  room generation, Prim MST, obstacle scatter, cellular automata, tile
  placement),
* `src/game/generation/map.py` (the older map generator with enemy and
  item placement and the safe spawn radius),
* `src/game/vector_field.py` (the BFS flow field).

Machine integers are modelled as `Int`/`Nat` (Python integers are exact),
floats returned by `math.sqrt`/`np.hypot` are modelled exactly by keeping
the squared value as an `Int` (the square root is a strictly monotone map
on nonnegative reals, so comparisons and equalities of the square roots
are exactly comparisons and equalities of the squared values; theorems
about the actual distances use `Real.sqrt` of the embedded square).
Fallible operations (list indexing errors, popping an empty deque, dict
KeyError) return `Option`, with `none` for the raised exception, and
loops that the source runs without a syntactic bound take a fuel
parameter, with `none` for running out of fuel.
-/

namespace Hades

/-- Grid coordinates, from `primitives.py` `Point` (a NamedTuple of two ints). -/
structure Point where
  x : Int
  y : Int
deriving DecidableEq, Repr

/-- A rectangle, from `primitives.py` `Rect` (a NamedTuple of two Points). -/
structure Rect where
  top_left : Point
  bottom_right : Point
deriving DecidableEq, Repr

/-- Python `round(s / 2)` for an integer `s`: ties (odd `s`) round to the even
neighbour (banker rounding).  Both divisions below are exact, so the choice of
integer-division convention does not matter. -/
def pyHalfRound (s : Int) : Int :=
  if s % 2 = 0 then s / 2
  else
    let k := (s - 1) / 2
    if k % 2 = 0 then k else k + 1

/-- `Rect.center_x`: `round((self.top_left.x + self.bottom_right.x) / 2)`. -/
def Rect.center_x (r : Rect) : Int := pyHalfRound (r.top_left.x + r.bottom_right.x)

/-- `Rect.center_y`: `round((self.top_left.y + self.bottom_right.y) / 2)`. -/
def Rect.center_y (r : Rect) : Int := pyHalfRound (r.top_left.y + r.bottom_right.y)

/-- The squared value of `Rect.get_distance_to` exactly as written in
`primitives.py` (the source returns `math.sqrt` of this quantity):

```
math.sqrt((self.center_x - other.center_x) ** 2
          + (self.center_y - other.center_x) ** 2)
```

Note the second term subtracts `other.center_x`, exactly as in the source. -/
def Rect.get_distance_to_sq (self other : Rect) : Int :=
  (self.center_x - other.center_x) ^ 2 + (self.center_y - other.center_x) ^ 2

/-- The squared Euclidean distance between the centers of two rects, the
quantity the docstring of `get_distance_to` promises. -/
def Rect.euclidean_center_dist_sq (self other : Rect) : Int :=
  (self.center_x - other.center_x) ^ 2 + (self.center_y - other.center_y) ^ 2

/-- A rect whose center is `(0, 0)`. -/
def rectA : Rect := ⟨⟨0, 0⟩, ⟨0, 0⟩⟩

/-- A rect whose center is `(3, 4)`. -/
def rectB : Rect := ⟨⟨3, 4⟩, ⟨3, 4⟩⟩

/-- C4: `Rect.get_distance_to` is claimed to equal the Euclidean distance
between the two centers.  At the concrete rects with centers `(0, 0)` and
`(3, 4)` the code computes `sqrt 18` (it subtracts `other.center_x` in the
second term) while the Euclidean distance between the centers is
`sqrt 25 = 5`, so the value returned by the code differs from the claimed
one: the code contradicts its own docstring. -/
theorem C4_get_distance_to_code_bug :
    Rect.get_distance_to_sq rectA rectB = 18 ∧
    Rect.euclidean_center_dist_sq rectA rectB = 25 ∧
    Real.sqrt ((Rect.get_distance_to_sq rectA rectB : Int) : ℝ) ≠
      Real.sqrt ((Rect.euclidean_center_dist_sq rectA rectB : Int) : ℝ) := by
  have e1 : Rect.get_distance_to_sq rectA rectB = 18 := by decide
  have e2 : Rect.euclidean_center_dist_sq rectA rectB = 25 := by decide
  refine ⟨e1, e2, ?_⟩
  rw [e1, e2]
  intro h
  have h2 : ((18 : Int) : ℝ) = ((25 : Int) : ℝ) := by
    have hsq := congrArg (fun r : ℝ => r ^ 2) h
    have h18 : (0 : ℝ) ≤ ((18 : Int) : ℝ) := by norm_num
    have h25 : (0 : ℝ) ≤ ((25 : Int) : ℝ) := by norm_num
    simpa [Real.sq_sqrt h18, Real.sq_sqrt h25] using hsq
  norm_num at h2

/-- The tile enumeration from `hades/constants/generation.py` (values listed
in the specification, section 6). -/
inductive TileType where
  | empty
  | floor
  | wall
  | obstacle
  | debug_wall
  | player
  | enemy_1
  | health_potion
  | armour_potion
  | health_boost_potion
  | armour_boost_potion
  | speed_boost_potion
  | fire_rate_boost_potion
deriving DecidableEq, Repr

/-- The 2D dungeon grid (a numpy array of tile types in the source), stored
row major: the outer list is indexed by `y`, rows by `x`. -/
abbrev Grid := List (List TileType)

/-- Read `grid[y][x]`; positions outside the grid read as EMPTY (the
generation code never reads out of bounds, in-bounds hypotheses accompany
every theorem that needs them). -/
def cellAt (g : Grid) (y x : Nat) : TileType := (g.getD y []).getD x TileType.empty

/-- Write `grid[y][x] = t` (no-op out of bounds, which the source never does). -/
def setCell (g : Grid) (y x : Nat) (t : TileType) : Grid :=
  g.set y ((g.getD y []).set x t)

theorem length_setCell (g : Grid) (y x : Nat) (t : TileType) :
    (setCell g y x t).length = g.length := by
  simp [setCell]

theorem getD_row_eq (g : Grid) (j : Nat) : g.getD j [] = (g[j]?).getD [] := by
  simp [List.getD_eq_getElem?_getD]

theorem rowLen_setCell (g : Grid) (y x : Nat) (t : TileType) (j : Nat) :
    ((setCell g y x t).getD j []).length = (g.getD j []).length := by
  simp only [setCell, List.getD_eq_getElem?_getD, List.getElem?_set]
  by_cases hyj : y = j
  · subst hyj
    by_cases hy : y < g.length
    · simp [hy]
    · simp [hy, List.getElem?_eq_none (Nat.le_of_not_lt hy)]
  · simp [hyj]

theorem cellAt_setCell_ne (g : Grid) (y x : Nat) (t : TileType) (j i : Nat)
    (h : (j, i) ≠ (y, x)) : cellAt (setCell g y x t) j i = cellAt g j i := by
  simp only [cellAt, setCell, List.getD_eq_getElem?_getD, List.getElem?_set]
  by_cases hyj : y = j
  · subst hyj
    have hxi : x ≠ i := fun hx => h (by rw [hx])
    by_cases hy : y < g.length
    · simp [hy, List.getElem?_set_ne hxi]
    · simp [hy, List.getElem?_eq_none (Nat.le_of_not_lt hy)]
  · simp [hyj]

theorem cellAt_setCell_self (g : Grid) (y x : Nat) (t : TileType)
    (hy : y < g.length) (hx : x < (g.getD y []).length) :
    cellAt (setCell g y x t) y x = t := by
  simp only [cellAt, setCell, List.getD_eq_getElem?_getD]
  rw [List.getElem?_set_self hy, Option.getD_some,
    List.getElem?_set_self (by simpa [List.getD_eq_getElem?_getD] using hx)]
  rfl

/-- The row-major list of positions holding an EMPTY tile, exactly the pairs
produced by `np.where(grid == TileType.EMPTY)` in `create_hallways`. -/
def emptyPositions (g : Grid) : List (Nat × Nat) :=
  (List.range g.length).flatMap fun y =>
    ((List.range ((g.getD y []).length)).filter
      (fun x => decide (cellAt g y x = TileType.empty))).map fun x => (y, x)

theorem mem_emptyPositions {g : Grid} {p : Nat × Nat} :
    p ∈ emptyPositions g ↔
      p.1 < g.length ∧ p.2 < (g.getD p.1 []).length ∧ cellAt g p.1 p.2 = TileType.empty := by
  obtain ⟨y, x⟩ := p
  simp only [emptyPositions, List.mem_flatMap, List.mem_map, List.mem_filter, List.mem_range]
  constructor
  · rintro ⟨y', hy', x', ⟨hx', hcell⟩, hpair⟩
    simp only [Prod.mk.injEq] at hpair
    obtain ⟨rfl, rfl⟩ := hpair
    exact ⟨hy', hx', of_decide_eq_true hcell⟩
  · rintro ⟨hy, hx, hcell⟩
    exact ⟨y, hy, x, ⟨hx, decide_eq_true hcell⟩, rfl⟩

/-- One step of the obstacle scatter: look up the chosen index in the list of
EMPTY positions (an out-of-range index would be a numpy IndexError) and mark
the position OBSTACLE. -/
def obsStep (g : Grid) (acc : Grid) (i : Nat) : Option Grid :=
  match (emptyPositions g)[i]? with
  | none => none
  | some p => some (setCell acc p.1 p.2 TileType.obstacle)

/-- The obstacle scatter from `create_hallways` in
`src/src/hades/generation/map.py`:

```
y, x = np.where(grid == TileType.EMPTY)
arr_index = np.random.choice(len(y), obstacle_count)
grid[y[arr_index], x[arr_index]] = TileType.OBSTACLE
```

`np.random.choice(len(y), k)` draws `k` indices WITH replacement; the drawn
index list is the `idxs` argument (each entry is a possible draw of
`np.random.choice` exactly when it is below `len(y)`).  The vectorised numpy
assignment writes OBSTACLE at every indexed position, which is the same as
writing them one by one since all writes store the same value. -/
def placeObstacles (g : Grid) (idxs : List Nat) : Option Grid :=
  idxs.foldlM (obsStep g) g

/-- Whether two grids of the same shape differ at a position of `g`. -/
def changedFinset (g gf : Grid) : Finset (Nat × Nat) :=
  (((List.range g.length).flatMap fun y =>
    (List.range ((g.getD y []).length)).map fun x => (y, x)).filter
      (fun p => decide (cellAt gf p.1 p.2 ≠ cellAt g p.1 p.2))).toFinset

theorem mem_changedFinset {g gf : Grid} {p : Nat × Nat} :
    p ∈ changedFinset g gf ↔
      p.1 < g.length ∧ p.2 < (g.getD p.1 []).length ∧ cellAt gf p.1 p.2 ≠ cellAt g p.1 p.2 := by
  obtain ⟨y, x⟩ := p
  simp only [changedFinset, List.mem_toFinset, List.mem_filter, List.mem_flatMap,
    List.mem_map, List.mem_range]
  constructor
  · rintro ⟨⟨y', hy', x', hx', hpair⟩, hne⟩
    simp only [Prod.mk.injEq] at hpair
    obtain ⟨rfl, rfl⟩ := hpair
    exact ⟨hy', hx', of_decide_eq_true hne⟩
  · rintro ⟨hy, hx, hne⟩
    exact ⟨⟨y, hy, x, hx, rfl⟩, decide_eq_true hne⟩

/-- Shape agreement between the original grid and an intermediate grid. -/
def SameShape (g acc : Grid) : Prop :=
  acc.length = g.length ∧ ∀ j, (acc.getD j []).length = (g.getD j []).length

theorem sameShape_setCell {g acc : Grid} (h : SameShape g acc) (y x : Nat) (t : TileType) :
    SameShape g (setCell acc y x t) := by
  refine ⟨by rw [length_setCell]; exact h.1, fun j => ?_⟩
  rw [rowLen_setCell]; exact h.2 j

theorem placeObstacles_fold (g : Grid) (P : Nat × Nat → Prop) :
    ∀ (idxs : List Nat) (acc gf : Grid),
      (∀ i ∈ idxs, ∀ p, (emptyPositions g)[i]? = some p → P p) →
      SameShape g acc →
      (∀ y x, cellAt acc y x ≠ cellAt g y x → P (y, x) ∧ cellAt acc y x = TileType.obstacle) →
      idxs.foldlM (obsStep g) acc = some gf →
      SameShape g gf ∧
        ∀ y x, cellAt gf y x ≠ cellAt g y x → P (y, x) ∧ cellAt gf y x = TileType.obstacle
  | [], acc, gf, _, hshape, hinv, hrun => by
      simp only [List.foldlM_nil] at hrun
      cases hrun
      exact ⟨hshape, hinv⟩
  | i :: rest, acc, gf, hidx, hshape, hinv, hrun => by
      rw [List.foldlM_cons] at hrun
      rcases hstep : obsStep g acc i with _ | acc₁
      · rw [hstep] at hrun; exact absurd hrun (by simp)
      · rw [hstep] at hrun
        simp only [Option.bind_eq_bind, Option.some_bind] at hrun
        unfold obsStep at hstep
        rcases hp : (emptyPositions g)[i]? with _ | p
        · rw [hp] at hstep; exact absurd hstep (by simp)
        · rw [hp] at hstep
          have hacc₁ : acc₁ = setCell acc p.1 p.2 TileType.obstacle := by
            simpa using hstep.symm
          subst hacc₁
          have hpmem : p ∈ emptyPositions g := List.getElem?_mem hp
          have hbounds := mem_emptyPositions.mp hpmem
          refine placeObstacles_fold g P rest _ gf
            (fun j hj => hidx j (List.mem_cons_of_mem _ hj))
            (sameShape_setCell hshape p.1 p.2 _) (fun y x hne => ?_) hrun
          by_cases hpos : (y, x) = (p.1, p.2)
          · simp only [Prod.mk.injEq] at hpos
            obtain ⟨rfl, rfl⟩ := hpos
            refine ⟨hidx i (List.mem_cons_self i rest) p hp, ?_⟩
            exact cellAt_setCell_self acc p.1 p.2 _ (hshape.1 ▸ hbounds.1)
              ((hshape.2 p.1) ▸ hbounds.2.1)
          · rw [cellAt_setCell_ne acc p.1 p.2 _ y x hpos] at hne ⊢
            exact hinv y x hne

/-- C5 counterexample: on a 1-by-2 grid with two EMPTY cells, the draw
`[0, 0]` — a legal output of `np.random.choice(2, 2)` since sampling is WITH
replacement — marks only ONE distinct cell OBSTACLE even though
`obstacle_count = 2` and at least two EMPTY cells exist, refuting the claim
that exactly `obstacle_count` distinct cells change. -/
theorem C5_counterexample :
    placeObstacles [[TileType.empty, TileType.empty]] [0, 0] =
      some [[TileType.obstacle, TileType.empty]] ∧
    2 ≤ (emptyPositions [[TileType.empty, TileType.empty]]).length ∧
    (changedFinset [[TileType.empty, TileType.empty]] [[TileType.obstacle, TileType.empty]]).card
      = 1 := by
  decide

/-- C5 (amended): the obstacle scatter draws its indices WITH replacement, so
it changes AT MOST `obstacle_count` distinct cells; every changed cell was
EMPTY before the scatter and holds OBSTACLE afterwards, and no other cell
changes. -/
theorem C5_obstacle_scatter_amended (g : Grid) (idxs : List Nat) (gf : Grid)
    (h : placeObstacles g idxs = some gf) :
    (∀ y x, cellAt gf y x ≠ cellAt g y x →
      cellAt g y x = TileType.empty ∧ cellAt gf y x = TileType.obstacle ∧
        (y, x) ∈ emptyPositions g) ∧
    (changedFinset g gf).card ≤ idxs.length := by
  have main := placeObstacles_fold g
    (fun p => ∃ i ∈ idxs, (emptyPositions g)[i]? = some p) idxs g gf
    (fun i hi p hp => ⟨i, hi, hp⟩) ⟨rfl, fun _ => rfl⟩
    (fun y x hne => absurd rfl hne) h
  have hchg : ∀ y x, cellAt gf y x ≠ cellAt g y x →
      cellAt g y x = TileType.empty ∧ cellAt gf y x = TileType.obstacle ∧
        (y, x) ∈ emptyPositions g := by
    intro y x hne
    obtain ⟨⟨i, hi, hp⟩, hobs⟩ := main.2 y x hne
    have hmem : (y, x) ∈ emptyPositions g := List.getElem?_mem hp
    exact ⟨(mem_emptyPositions.mp hmem).2.2, hobs, hmem⟩
  refine ⟨hchg, ?_⟩
  have hsub : changedFinset g gf ⊆
      (idxs.filterMap (fun i => (emptyPositions g)[i]?)).toFinset := by
    intro p hp
    have hne := (mem_changedFinset.mp hp).2.2
    obtain ⟨⟨i, hi, hip⟩, _⟩ := main.2 p.1 p.2 hne
    exact List.mem_toFinset.mpr (List.mem_filterMap.mpr ⟨i, hi, hip⟩)
  calc (changedFinset g gf).card
      ≤ (idxs.filterMap (fun i => (emptyPositions g)[i]?)).toFinset.card :=
        Finset.card_le_card hsub
    _ ≤ (idxs.filterMap (fun i => (emptyPositions g)[i]?)).length :=
        List.toFinset_card_le _
    _ ≤ idxs.length := List.length_filterMap_le _ _

/-- C5 witness: the amended theorem applied to the concrete 1-by-2 grid. -/
theorem C5_witness :
    (∀ y x,
      cellAt [[TileType.obstacle, TileType.empty]] y x ≠
        cellAt [[TileType.empty, TileType.empty]] y x →
      cellAt [[TileType.empty, TileType.empty]] y x = TileType.empty ∧
      cellAt [[TileType.obstacle, TileType.empty]] y x = TileType.obstacle ∧
        (y, x) ∈ emptyPositions [[TileType.empty, TileType.empty]]) ∧
    (changedFinset [[TileType.empty, TileType.empty]]
      [[TileType.obstacle, TileType.empty]]).card ≤ 2 :=
  C5_obstacle_scatter_amended [[TileType.empty, TileType.empty]] [0, 0]
    [[TileType.obstacle, TileType.empty]] (by decide)

/-- The cardinal-neighbour generator `grid_bfs` from
`src/src/hades/generation/map.py`: offsets `(0,-1), (-1,0), (1,0), (0,1)`
applied to `target = (x, y)`, keeping a candidate unless
`(x < 0 or x >= width) or (y < 0 or y >= height)`. -/
def grid_bfs (target : Int × Int) (height width : Int) : List (Int × Int) :=
  ([(0, -1), (-1, 0), (1, 0), (0, 1)] : List (Int × Int)).filterMap fun o =>
    let x := target.1 + o.1
    let y := target.2 + o.2
    if x < 0 ∨ width ≤ x ∨ y < 0 ∨ height ≤ y then none else some (x, y)

/-- Modelled from the spec: the constants module `hades/constants/generation.py`
is absent from the sources; per the specification the wall-replaceable tiles
are EMPTY, DEBUG_WALL and OBSTACLE. -/
def WALL_REPLACEABLE_TILES : List TileType :=
  [TileType.empty, TileType.debug_wall, TileType.obstacle]

/-- One cell visit of `do_cellular_automata_simulation` from
`src/src/hades/generation/map.py`.  The neighbour count and the cell value
are read from the LIVE grid (the source mutates `grid` in place inside the
`for y / for x` loops, it takes no snapshot):

```
alive = 0
for neighbour_x, neighbour_y in grid_bfs((x, y), *grid.shape):
    if grid[neighbour_y][neighbour_x] == TileType.FLOOR:
        alive += 1
if column == TileType.FLOOR:
    pass
elif column in WALL_REPLACEABLE_TILES and alive >= 3:
    grid[y][x] = TileType.FLOOR
else:
    grid[y][x] = TileType.EMPTY
```
-/
def caUpdateCell (g : Grid) (y x : Nat) : Grid :=
  let column := cellAt g y x
  let alive := ((grid_bfs ((x : Int), (y : Int)) (g.length : Int)
      ((g.getD 0 []).length : Int)).filter
    (fun p => decide (cellAt g p.2.toNat p.1.toNat = TileType.floor))).length
  if column = TileType.floor then g
  else if column ∈ WALL_REPLACEABLE_TILES ∧ 3 ≤ alive then setCell g y x TileType.floor
  else setCell g y x TileType.empty

/-- The full row-major in-place pass of `do_cellular_automata_simulation`
(`for y, row in enumerate(grid): for x, column in enumerate(row): ...`). -/
def do_cellular_automata_simulation (g : Grid) : Grid :=
  (List.range g.length).foldl
    (fun acc y =>
      (List.range ((acc.getD y []).length)).foldl (fun acc2 x => caUpdateCell acc2 y x) acc)
    g

/-- A cell holding FLOOR or EMPTY. -/
def FloorOrEmpty (g : Grid) (y x : Nat) : Prop :=
  cellAt g y x = TileType.floor ∨ cellAt g y x = TileType.empty

theorem cellAt_setCell_or (g : Grid) (y x : Nat) (t : TileType) :
    cellAt (setCell g y x t) y x = t ∨ cellAt (setCell g y x t) y x = cellAt g y x := by
  by_cases hy : y < g.length
  · by_cases hx : x < (g.getD y []).length
    · exact Or.inl (cellAt_setCell_self g y x t hy hx)
    · right
      have hx2 : (g[y]?.getD []).length ≤ x := by
        rw [← getD_row_eq]; exact Nat.le_of_not_lt hx
      simp only [cellAt, setCell, List.getD_eq_getElem?_getD]
      rw [List.getElem?_set_self hy, Option.getD_some, List.getElem?_set]
      simp [List.getElem?_eq_none hx2, Nat.lt_irrefl, Nat.not_lt.mpr hx2]
  · right
    simp only [setCell, List.set_eq_of_length_le (Nat.le_of_not_lt hy)]

theorem length_caUpdate (g : Grid) (y x : Nat) :
    (caUpdateCell g y x).length = g.length := by
  simp only [caUpdateCell]
  split_ifs <;> simp [length_setCell]

theorem rowLen_caUpdate (g : Grid) (y x j : Nat) :
    ((caUpdateCell g y x).getD j []).length = (g.getD j []).length := by
  simp only [caUpdateCell]
  split_ifs
  · rfl
  · exact rowLen_setCell g y x _ j
  · exact rowLen_setCell g y x _ j

theorem caUpdate_floor_mono (g : Grid) (y x j i : Nat)
    (hf : cellAt g j i = TileType.floor) :
    cellAt (caUpdateCell g y x) j i = TileType.floor := by
  by_cases hji : (j, i) = (y, x)
  · simp only [Prod.mk.injEq] at hji
    obtain ⟨rfl, rfl⟩ := hji
    simp only [caUpdateCell]
    rw [if_pos hf]
    exact hf
  · simp only [caUpdateCell]
    split_ifs
    · exact hf
    · rw [cellAt_setCell_ne _ _ _ _ _ _ hji]; exact hf
    · rw [cellAt_setCell_ne _ _ _ _ _ _ hji]; exact hf

theorem caUpdate_fe_mono (g : Grid) (y x j i : Nat) (h : FloorOrEmpty g j i) :
    FloorOrEmpty (caUpdateCell g y x) j i := by
  by_cases hji : (j, i) = (y, x)
  · simp only [Prod.mk.injEq] at hji
    obtain ⟨rfl, rfl⟩ := hji
    unfold FloorOrEmpty at h ⊢
    simp only [caUpdateCell]
    split_ifs
    · exact h
    · rcases cellAt_setCell_or g j i TileType.floor with hc | hc
      · exact Or.inl hc
      · rwa [hc]
    · rcases cellAt_setCell_or g j i TileType.empty with hc | hc
      · exact Or.inr hc
      · rwa [hc]
  · unfold FloorOrEmpty at h ⊢
    simp only [caUpdateCell]
    split_ifs
    · exact h
    · rwa [cellAt_setCell_ne _ _ _ _ _ _ hji]
    · rwa [cellAt_setCell_ne _ _ _ _ _ _ hji]

theorem caUpdate_fe_self (g : Grid) (y x : Nat)
    (hy : y < g.length) (hx : x < (g.getD y []).length) :
    FloorOrEmpty (caUpdateCell g y x) y x := by
  unfold FloorOrEmpty
  simp only [caUpdateCell]
  split_ifs with h1 h2
  · exact Or.inl h1
  · exact Or.inl (cellAt_setCell_self g y x _ hy hx)
  · exact Or.inr (cellAt_setCell_self g y x _ hy hx)

theorem innerFold_floor_mono (y : Nat) (xs : List Nat) (acc : Grid) (j i : Nat)
    (hf : cellAt acc j i = TileType.floor) :
    cellAt (xs.foldl (fun a x => caUpdateCell a y x) acc) j i = TileType.floor := by
  induction xs generalizing acc with
  | nil => exact hf
  | cons x xs ih => exact ih _ (caUpdate_floor_mono _ _ _ _ _ hf)

theorem innerFold_fe_mono (y : Nat) (xs : List Nat) (acc : Grid) (j i : Nat)
    (h : FloorOrEmpty acc j i) :
    FloorOrEmpty (xs.foldl (fun a x => caUpdateCell a y x) acc) j i := by
  induction xs generalizing acc with
  | nil => exact h
  | cons x xs ih => exact ih _ (caUpdate_fe_mono _ _ _ _ _ h)

theorem innerFold_length (y : Nat) (xs : List Nat) (acc : Grid) :
    (xs.foldl (fun a x => caUpdateCell a y x) acc).length = acc.length := by
  induction xs generalizing acc with
  | nil => rfl
  | cons x xs ih => rw [List.foldl_cons, ih, length_caUpdate]

theorem innerFold_rowLen (y : Nat) (xs : List Nat) (acc : Grid) (j : Nat) :
    ((xs.foldl (fun a x => caUpdateCell a y x) acc).getD j []).length =
      ((acc.getD j []).length) := by
  induction xs generalizing acc with
  | nil => rfl
  | cons x xs ih => rw [List.foldl_cons, ih, rowLen_caUpdate]

theorem innerFold_fe (y : Nat) (xs : List Nat) (acc : Grid) (i : Nat)
    (hy : y < acc.length) (hi : i < (acc.getD y []).length) (hmem : i ∈ xs) :
    FloorOrEmpty (xs.foldl (fun a x => caUpdateCell a y x) acc) y i := by
  induction xs generalizing acc with
  | nil => cases hmem
  | cons x xs ih =>
    rw [List.foldl_cons]
    rcases List.mem_cons.mp hmem with rfl | hmem2
    · exact innerFold_fe_mono y xs _ y i (caUpdate_fe_self acc y i hy hi)
    · exact ih _ (by rw [length_caUpdate]; exact hy) (by rw [rowLen_caUpdate]; exact hi) hmem2

theorem outerFold_floor_mono (ys : List Nat) (acc : Grid) (j i : Nat)
    (hf : cellAt acc j i = TileType.floor) :
    cellAt (ys.foldl
      (fun a y => (List.range ((a.getD y []).length)).foldl
        (fun a2 x => caUpdateCell a2 y x) a) acc) j i = TileType.floor := by
  induction ys generalizing acc with
  | nil => exact hf
  | cons y ys ih => exact ih _ (innerFold_floor_mono _ _ _ _ _ hf)

theorem outerFold_fe_mono (ys : List Nat) (acc : Grid) (j i : Nat)
    (h : FloorOrEmpty acc j i) :
    FloorOrEmpty (ys.foldl
      (fun a y => (List.range ((a.getD y []).length)).foldl
        (fun a2 x => caUpdateCell a2 y x) a) acc) j i := by
  induction ys generalizing acc with
  | nil => exact h
  | cons y ys ih => exact ih _ (innerFold_fe_mono _ _ _ _ _ h)

theorem outerFold_fe (ys : List Nat) (acc : Grid) (j i : Nat)
    (hj : j ∈ ys) (hy : j < acc.length) (hi : i < (acc.getD j []).length) :
    FloorOrEmpty (ys.foldl
      (fun a y => (List.range ((a.getD y []).length)).foldl
        (fun a2 x => caUpdateCell a2 y x) a) acc) j i := by
  induction ys generalizing acc with
  | nil => cases hj
  | cons y ys ih =>
    rw [List.foldl_cons]
    rcases List.mem_cons.mp hj with rfl | hj2
    · exact outerFold_fe_mono ys _ j i
        (innerFold_fe j (List.range ((acc.getD j []).length)) acc i hy hi
          (List.mem_range.mpr hi))
    · exact ih _ hj2 (by rw [innerFold_length]; exact hy) (by rw [innerFold_rowLen]; exact hi)

/-- The 3-by-3 grid used to refute the snapshot semantics of C6. -/
def caGrid : Grid :=
  [[TileType.empty, TileType.floor, TileType.floor],
   [TileType.floor, TileType.empty, TileType.empty],
   [TileType.wall, TileType.floor, TileType.floor]]

/-- C6 counterexample: in `do_cellular_automata_simulation` on `caGrid`,
the WALL cell at `(y, x) = (2, 0)` is rewritten to EMPTY (the `else` branch
of the source sets every non-FLOOR, non-promoted cell to EMPTY, WALL
included), and the EMPTY cell at `(1, 2)` becomes FLOOR even though it has
only 2 FLOOR neighbours in the pre-iteration grid: the pass reads the grid
it is mutating (cell `(1, 1)` was promoted to FLOOR earlier in the same
scan), so updates are NOT applied from a snapshot.  Both conjuncts of the
claim fail. -/
theorem C6_counterexample :
    do_cellular_automata_simulation caGrid =
      [[TileType.empty, TileType.floor, TileType.floor],
       [TileType.floor, TileType.floor, TileType.floor],
       [TileType.empty, TileType.floor, TileType.floor]] ∧
    cellAt caGrid 2 0 = TileType.wall ∧
    cellAt (do_cellular_automata_simulation caGrid) 2 0 = TileType.empty ∧
    cellAt caGrid 1 2 = TileType.empty ∧
    ((grid_bfs (2, 1) 3 3).filter
      (fun p => decide (cellAt caGrid p.2.toNat p.1.toNat = TileType.floor))).length = 2 ∧
    cellAt (do_cellular_automata_simulation caGrid) 1 2 = TileType.floor := by
  decide

/-- C6 (amended): each smoothing iteration mutates the grid in place in
row-major order, so later cells see earlier updates in their neighbour
counts; a FLOOR cell stays FLOOR; a wall-replaceable cell with at least 3
FLOOR neighbours at visit time becomes FLOOR; and EVERY other cell —
including WALL cells — is set to EMPTY, so after one iteration every cell
of the grid is FLOOR or EMPTY. -/
theorem C6_ca_amended (g : Grid) :
    (∀ y x, cellAt g y x = TileType.floor →
      cellAt (do_cellular_automata_simulation g) y x = TileType.floor) ∧
    ∀ y x, y < g.length → x < (g.getD y []).length →
      FloorOrEmpty (do_cellular_automata_simulation g) y x := by
  constructor
  · intro y x hf
    exact outerFold_floor_mono (List.range g.length) g y x hf
  · intro y x hy hx
    exact outerFold_fe (List.range g.length) g y x (List.mem_range.mpr hy) hy hx

/-- C6 witness: the amended theorem applied to the concrete grid `caGrid`. -/
theorem C6_witness :
    cellAt (do_cellular_automata_simulation caGrid) 0 1 = TileType.floor ∧
    FloorOrEmpty (do_cellular_automata_simulation caGrid) 2 0 :=
  ⟨(C6_ca_amended caGrid).1 0 1 (by decide),
    (C6_ca_amended caGrid).2 2 0 (by decide) (by decide)⟩

/-- A BSP leaf as consumed by `generate_rooms`: an optional already-created
room and an optional pair of children (`Leaf.left` and `Leaf.right` are set
together by `Leaf.split`): `leaf room` has no children, `node room l r` has
both. -/
inductive BLeaf where
  | leaf (room : Option (Nat × Nat)) : BLeaf
  | node (room : Option (Nat × Nat)) (left right : BLeaf) : BLeaf

/-- Modelled from the spec: `Leaf.create_room` (in `hades/generation/bsp.py`,
absent from the sources) accepts a sampled width and height exactly when the
width-to-height ratio lies in `[0.5, 2.0]`; for positive `h` this is
`h <= 2 * w` and `w <= 2 * h`. -/
def ratioWithinRange (w h : Nat) : Bool := h ≤ 2 * w ∧ w ≤ 2 * h

/-- The retry loop of `generate_rooms` in `src/src/hades/generation/map.py`:

```
while not current.create_room():
    logger.debug(...)
```

It retries with NO budget until a sample is accepted.  `s` is the stream of
sampled room dimensions, `si` the next sample index; on success the result
carries the accepted sample and the next unused index.  `fuel` bounds how
many attempts we unfold; the source loop itself is unbounded. -/
def createRoomRetry (fuel : Nat) (s : Nat → Nat × Nat) (si : Nat) :
    Option ((Nat × Nat) × Nat) :=
  match fuel with
  | 0 => none
  | fuel + 1 =>
    if ratioWithinRange (s si).1 (s si).2 then some (s si, si + 1)
    else createRoomRetry fuel s (si + 1)

/-- The walk of `generate_rooms` from `src/src/hades/generation/map.py`: a
LIFO stack (deque with `append`/`pop`) seeded with the root; a leaf whose
`room` is set is skipped (`continue`); a leaf with children pushes both
children (append left, append right, so the right child is popped first);
a childless room-less leaf runs the retry loop and adds the created room. -/
def generateRoomsLoop (fuel : Nat) (stack : List BLeaf) (s : Nat → Nat × Nat)
    (si : Nat) (rooms : List (Nat × Nat)) : Option (List (Nat × Nat) × Nat) :=
  match fuel with
  | 0 => none
  | fuel + 1 =>
    match stack with
    | [] => some (rooms, si)
    | BLeaf.leaf (some _) :: rest => generateRoomsLoop fuel rest s si rooms
    | BLeaf.node (some _) _ _ :: rest => generateRoomsLoop fuel rest s si rooms
    | BLeaf.node none l r :: rest => generateRoomsLoop fuel (r :: l :: rest) s si rooms
    | BLeaf.leaf none :: rest =>
      match createRoomRetry fuel s si with
      | none => none
      | some (rm, si2) => generateRoomsLoop fuel rest s si2 (rooms ++ [rm])

/-- A sample stream whose ratio `1 / 3` is always outside `[0.5, 2.0]`. -/
def badDims : Nat → Nat × Nat := fun _ => (1, 3)

/-- The childless, room-less leaves of a BSP tree: exactly the leaves on
which `generate_rooms` runs the `create_room` retry loop. -/
def countTerminal : BLeaf → Nat
  | BLeaf.leaf none => 1
  | BLeaf.leaf (some _) => 0
  | BLeaf.node (some _) _ _ => 0
  | BLeaf.node none l r => countTerminal l + countTerminal r

/-- C2 counterexample: on a terminal leaf whose sampled dimensions always
have ratio `1 / 3` (outside `[0.5, 2.0]`), the retry loop of
`generate_rooms` never stops for ANY number of unfolded attempts: there is
no retry budget after which the leaf yields no room and is skipped, and
room generation does not terminate on this split BSP for this sample
stream. -/
theorem C2_counterexample :
    (∀ fuel si, createRoomRetry fuel badDims si = none) ∧
    (∀ fuel, generateRoomsLoop fuel [BLeaf.leaf none] badDims 0 [] = none) := by
  have hretry : ∀ fuel si, createRoomRetry fuel badDims si = none := by
    intro fuel
    induction fuel with
    | zero => intro si; rfl
    | succ n ih =>
      intro si
      simp only [createRoomRetry, badDims]
      rw [if_neg (by decide)]
      exact ih (si + 1)
  refine ⟨hretry, ?_⟩
  intro fuel
  cases fuel with
  | zero => rfl
  | succ n =>
    simp only [generateRoomsLoop]
    rw [hretry n 0]

theorem generateRoomsLoop_length (fuel : Nat) :
    ∀ (stack : List BLeaf) (s : Nat → Nat × Nat) (si : Nat)
      (rooms : List (Nat × Nat)) (out : List (Nat × Nat) × Nat),
      generateRoomsLoop fuel stack s si rooms = some out →
      out.1.length = rooms.length + (stack.map countTerminal).sum := by
  induction fuel with
  | zero => intro stack s si rooms out h; cases h
  | succ n ih =>
    intro stack s si rooms out h
    match stack with
    | [] =>
      simp only [generateRoomsLoop] at h
      cases h
      simp
    | BLeaf.leaf (some rm) :: rest =>
      simp only [generateRoomsLoop] at h
      have := ih rest s si rooms out h
      simp [this, countTerminal]
    | BLeaf.node (some rm) l r :: rest =>
      simp only [generateRoomsLoop] at h
      have := ih rest s si rooms out h
      simp [this, countTerminal]
    | BLeaf.node none l r :: rest =>
      simp only [generateRoomsLoop] at h
      have := ih (r :: l :: rest) s si rooms out h
      simp only [List.map_cons, List.sum_cons, countTerminal] at this ⊢
      omega
    | BLeaf.leaf none :: rest =>
      simp only [generateRoomsLoop] at h
      rcases hc : createRoomRetry n s si with _ | p
      · rw [hc] at h; cases h
      · rw [hc] at h
        have := ih rest s p.2 (rooms ++ [p.1]) out h
        simp only [List.length_append, List.length_cons, List.length_nil,
          List.map_cons, List.sum_cons, countTerminal] at this ⊢
        omega

/-- C2 (amended): the room retry loop has NO budget — it terminates exactly
when the sample stream eventually produces dimensions whose ratio lies in
`[0.5, 2.0]` (first conjunct: a good sample at index `i` makes the loop
succeed once more than `i` attempts are unfolded), and a completed
`generate_rooms` pass yields ONE room for EVERY childless room-less leaf:
no leaf is ever skipped and no leaf area is left without a room (second
conjunct). -/
theorem C2_retry_unbounded_amended :
    (∀ (s : Nat → Nat × Nat) (i : Nat),
      ratioWithinRange (s i).1 (s i).2 = true →
      ∀ fuel si, si ≤ i → i < si + fuel →
        ∃ r, createRoomRetry fuel s si = some r) ∧
    (∀ fuel (t : BLeaf) (s : Nat → Nat × Nat) (si : Nat)
        (out : List (Nat × Nat) × Nat),
      generateRoomsLoop fuel [t] s si [] = some out →
      out.1.length = countTerminal t) := by
  constructor
  · intro s i hgood fuel
    induction fuel with
    | zero => intro si h1 h2; omega
    | succ n ih =>
      intro si h1 h2
      by_cases hsi : ratioWithinRange (s si).1 (s si).2 = true
      · exact ⟨(s si, si + 1), by simp only [createRoomRetry]; rw [if_pos hsi]⟩
      · have hne : si ≠ i := fun he => hsi (he ▸ hgood)
        obtain ⟨r, hr⟩ := ih (si + 1) (by omega) (by omega)
        exact ⟨r, by simp only [createRoomRetry]; rw [if_neg hsi]; exact hr⟩
  · intro fuel t s si out h
    have := generateRoomsLoop_length fuel [t] s si [] out h
    simpa using this

/-- C2 witness: the amended theorem applied to a stream whose second sample
is accepted, and to a run on a single terminal leaf. -/
theorem C2_witness :
    (∃ r, createRoomRetry 2 (fun j => if j = 0 then (1, 3) else (2, 2)) 0 = some r) ∧
    ([( (2, 2) : Nat × Nat )], 1).1.length = countTerminal (BLeaf.leaf none) :=
  ⟨C2_retry_unbounded_amended.1 (fun j => if j = 0 then (1, 3) else (2, 2)) 1
      (by decide) 2 0 (by decide) (by decide),
    C2_retry_unbounded_amended.2 3 (BLeaf.leaf none)
      (fun _ => (2, 2)) 0 ([((2, 2) : Nat × Nat)], 1) (by decide)⟩

/-- Modelled from the spec: the outcome of `Leaf.split`
(`hades/generation/bsp.py` is absent from the sources) on each leaf,
abstracted as a behavior tree: a dequeued leaf either fails to split or
splits into two children.  Each leaf is dequeued at most once, so a fixed
per-leaf outcome captures every possible random oracle. -/
inductive SLeaf where
  | noSplit : SLeaf
  | splits (left right : SLeaf) : SLeaf

/-- The work loop of `split_bsp` from `src/src/hades/generation/map.py`:

```
while split_iteration and deque_obj:
    current = deque_obj.popleft()
    if current.split() and current.left and current.right:
        deque_obj.append(current.left)
        deque_obj.append(current.right)
        split_iteration -= 1
```

FIFO queue (popleft from the front, append at the back); the two children
are enqueued, and the split budget decremented, only when the split
succeeds.  The returned number counts the dequeued leaves; `fuel` bounds
the loop iterations unfolded. -/
def splitBspLoop (fuel : Nat) (si : Nat) (dq : List SLeaf) (deqs : Nat) : Option Nat :=
  match fuel with
  | 0 => none
  | fuel + 1 =>
    if si = 0 then some deqs
    else
      match dq with
      | [] => some deqs
      | SLeaf.noSplit :: rest => splitBspLoop fuel si rest (deqs + 1)
      | SLeaf.splits l r :: rest => splitBspLoop fuel (si - 1) (rest ++ [l, r]) (deqs + 1)

theorem splitBspLoop_bounded (fuel : Nat) :
    ∀ (si : Nat) (dq : List SLeaf) (deqs : Nat), dq.length + 2 * si < fuel →
      ∃ d, splitBspLoop fuel si dq deqs = some d ∧ d ≤ deqs + dq.length + 2 * si := by
  induction fuel with
  | zero => intro si dq deqs h; omega
  | succ n ih =>
    intro si dq deqs h
    by_cases hsi : si = 0
    · exact ⟨deqs, by simp only [splitBspLoop]; rw [if_pos hsi], by omega⟩
    · match dq with
      | [] =>
        refine ⟨deqs, ?_, by omega⟩
        simp only [splitBspLoop]
        rw [if_neg hsi]
      | SLeaf.noSplit :: rest =>
        obtain ⟨d, hd, hb⟩ := ih si rest (deqs + 1) (by simp at h ⊢; omega)
        refine ⟨d, ?_, by simp at hb ⊢; omega⟩
        simp only [splitBspLoop]
        rw [if_neg hsi]
        exact hd
      | SLeaf.splits l r :: rest =>
        obtain ⟨d, hd, hb⟩ := ih (si - 1) (rest ++ [l, r]) (deqs + 1)
          (by simp at h ⊢; omega)
        refine ⟨d, ?_, by simp at hb ⊢; omega⟩
        simp only [splitBspLoop]
        rw [if_neg hsi]
        exact hd

/-- C10: `split_bsp` terminates for every root leaf, every split oracle and
every initial `split_iteration = n`: unfolding the loop `2 + 2n` times
already reaches the exit condition, and the number of leaves ever dequeued
is at most `1 + 2n` (each iteration removes exactly one leaf, and the two
children are enqueued only when the split succeeds, which also decrements
the budget, so at most `1 + 2n` leaves ever enter the queue). -/
theorem C10_split_bsp_terminates (si : Nat) (root : SLeaf) :
    ∃ d, splitBspLoop (2 + 2 * si) si [root] 0 = some d ∧ d ≤ 1 + 2 * si := by
  obtain ⟨d, hd, hb⟩ := splitBspLoop_bounded (2 + 2 * si) si [root] 0 (by simp)
  exact ⟨d, hd, by simpa using hb⟩

/-- A heap entry of `create_mst`: `(cost, source, destination)`.  The source
stores `cost = destination.get_distance_to(neighbour)`, a square root; the
embedding stores the squared value (`Rect.get_distance_to_sq`), which orders
and compares identically because the square root is strictly monotone on
nonnegative reals (the seed entry cost `0` is also the square of `0`). -/
abbrev MstEntry := Int × Rect × Rect

/-- Lexicographic comparison of points, as Python compares the NamedTuple. -/
def pointLtB (a b : Point) : Bool := a.x < b.x ∨ (a.x = b.x ∧ a.y < b.y)

/-- Lexicographic comparison of rects, as Python compares the NamedTuple. -/
def rectLtB (a b : Rect) : Bool :=
  pointLtB a.top_left b.top_left ∨
    (a.top_left = b.top_left ∧ pointLtB a.bottom_right b.bottom_right)

/-- The tuple order `heapq` uses on `(cost, source, destination)`. -/
def entryLtB (a b : MstEntry) : Bool :=
  a.1 < b.1 ∨ (a.1 = b.1 ∧
    (rectLtB a.2.1 b.2.1 ∨ (a.2.1 = b.2.1 ∧ rectLtB a.2.2 b.2.2)))

/-- The minimal entry of `e :: l` under the heap order (ties keep the
earlier entry; equal tuples are interchangeable values, so this matches
whatever tie `heapq` breaks). -/
def minEntry (e : MstEntry) : List MstEntry → MstEntry
  | [] => e
  | f :: rest => minEntry (if entryLtB f e then f else e) rest

/-- `heappop`: remove and return a minimal entry; `none` on an empty heap
(`heappop` raises IndexError there). -/
def popMin (hp : List MstEntry) : Option (MstEntry × List MstEntry) :=
  match hp with
  | [] => none
  | e :: t => some (minEntry e t, hp.erase (minEntry e t))

theorem minEntry_mem (l : List MstEntry) : ∀ e, minEntry e l ∈ e :: l := by
  induction l with
  | nil => intro e; simp [minEntry]
  | cons f rest ih =>
    intro e
    have h := ih (if entryLtB f e then f else e)
    have hstep : minEntry e (f :: rest) = minEntry (if entryLtB f e then f else e) rest := rfl
    rw [hstep]
    rcases List.mem_cons.mp h with h1 | h1
    · rw [h1]
      by_cases hlt : entryLtB f e
      · simp [hlt]
      · simp [hlt]
    · exact List.mem_cons_of_mem e (List.mem_cons_of_mem f h1)

theorem popMin_spec (hp : List MstEntry) (m : MstEntry) (rest : List MstEntry)
    (h : popMin hp = some (m, rest)) : m ∈ hp ∧ rest = hp.erase m := by
  match hp with
  | [] => cases h
  | e :: t =>
    simp only [popMin, Option.some.injEq, Prod.mk.injEq] at h
    obtain ⟨rfl, rfl⟩ := h
    exact ⟨minEntry_mem t e, rfl⟩

theorem popMin_isSome (hp : List MstEntry) (h : hp ≠ []) :
    ∃ m rest, popMin hp = some (m, rest) := by
  match hp with
  | [] => exact absurd rfl h
  | e :: t => exact ⟨_, _, rfl⟩

/-- The neighbour list `complete_graph[r]` of the complete graph that
`create_map` builds with `itertools.permutations(rooms, 2)`: every other
room, in room-list order. -/
def rectAdj (rooms : List Rect) (r : Rect) : List Rect :=
  rooms.filter fun x => decide (x ≠ r)

/-- The loop of `create_mst` from `src/src/hades/generation/map.py`:

```
while len(mst) < len(complete_graph) - 1:
    cost, source, destination = heappop(unexplored)
    if destination in visited:
        continue
    visited.add(destination)
    for neighbour in complete_graph[destination]:
        if neighbour not in visited:
            heappush(unexplored, (destination.get_distance_to(neighbour),
                                  destination, neighbour))
    if source != destination:
        mst.add((cost, source, destination))
```

For two or more rooms `len(complete_graph)` is the number of rooms. -/
def mstLoop (rooms : List Rect) (fuel : Nat) (visited : Finset Rect)
    (heap : List MstEntry) (mst : Finset MstEntry) : Option (Finset MstEntry) :=
  match fuel with
  | 0 => none
  | fuel + 1 =>
    if mst.card < rooms.length - 1 then
      match popMin heap with
      | none => none
      | some ((cost, src, dst), rest) =>
        if dst ∈ visited then mstLoop rooms fuel visited rest mst
        else
          mstLoop rooms fuel (insert dst visited)
            (rest ++ (rectAdj rooms dst).filterMap fun nb =>
              if nb ∈ insert dst visited then none
              else some (Rect.get_distance_to_sq dst nb, dst, nb))
            (if src ≠ dst then insert (cost, src, dst) mst else mst)
    else some mst

/-- `create_mst`: seed the heap with `(0, start, start)` where `start` is the
first key of the complete graph (the first room), then run the loop. -/
def create_mst (rooms : List Rect) (fuel : Nat) : Option (Finset MstEntry) :=
  match rooms with
  | [] => none
  | start :: _ => mstLoop rooms fuel ∅ [(0, start, start)] ∅

/-- Enough fuel for `mstLoop` on `n` rooms. -/
def create_mst_fuel (n : Nat) : Nat := (n + 1) * n + 2

/-- The loop invariant of `create_mst`. -/
structure MstInv (rooms : List Rect) (start : Rect) (visited : Finset Rect)
    (heap : List MstEntry) (mst : Finset MstEntry) : Prop where
  vsub : visited ⊆ rooms.toFinset
  hdst : ∀ e ∈ heap, e.2.2 ∈ rooms.toFinset
  mdst : ∀ e ∈ mst, e.2.2 ∈ visited
  phase : (visited = ∅ ∧ heap = [(0, start, start)] ∧ mst = ∅) ∨
    (start ∈ visited ∧ mst.card + 1 = visited.card ∧
      (∀ e ∈ heap, e.2.1 ≠ e.2.2) ∧
      ∀ u ∈ rooms.toFinset, u ∉ visited → ∃ e ∈ heap, e.2.2 = u)

theorem mstLoop_step_skip (rooms : List Rect) (n : Nat) (visited : Finset Rect)
    (heap : List MstEntry) (mst : Finset MstEntry)
    (cost : Int) (src dst : Rect) (rest : List MstEntry)
    (hpop : popMin heap = some ((cost, src, dst), rest))
    (hlt : mst.card < rooms.length - 1) (hdv : dst ∈ visited) :
    mstLoop rooms (n + 1) visited heap mst = mstLoop rooms n visited rest mst := by
  simp only [mstLoop]
  rw [if_pos hlt, hpop]
  simp only [if_pos hdv]

theorem mstLoop_step_visit (rooms : List Rect) (n : Nat) (visited : Finset Rect)
    (heap : List MstEntry) (mst : Finset MstEntry)
    (cost : Int) (src dst : Rect) (rest : List MstEntry)
    (hpop : popMin heap = some ((cost, src, dst), rest))
    (hlt : mst.card < rooms.length - 1) (hdv : dst ∉ visited) :
    mstLoop rooms (n + 1) visited heap mst =
      mstLoop rooms n (insert dst visited)
        (rest ++ (rectAdj rooms dst).filterMap fun nb =>
          if nb ∈ insert dst visited then none
          else some (Rect.get_distance_to_sq dst nb, dst, nb))
        (if src ≠ dst then insert (cost, src, dst) mst else mst) := by
  simp only [mstLoop]
  rw [if_pos hlt, hpop]
  simp only [if_neg hdv]

theorem mstLoop_exit (rooms : List Rect) (n : Nat) (visited : Finset Rect)
    (heap : List MstEntry) (mst : Finset MstEntry)
    (hlt : ¬ mst.card < rooms.length - 1) :
    mstLoop rooms (n + 1) visited heap mst = some mst := by
  simp only [mstLoop]
  rw [if_neg hlt]

theorem pushed_mem_elim {rooms : List Rect} {dst : Rect} {visited2 : Finset Rect}
    {e : MstEntry}
    (he : e ∈ (rectAdj rooms dst).filterMap fun nb =>
      if nb ∈ visited2 then none
      else some (Rect.get_distance_to_sq dst nb, dst, nb)) :
    ∃ nb ∈ rooms, nb ≠ dst ∧ nb ∉ visited2 ∧
      e = (Rect.get_distance_to_sq dst nb, dst, nb) := by
  rw [List.mem_filterMap] at he
  obtain ⟨nb, hnb, hnbe⟩ := he
  by_cases hv : nb ∈ visited2
  · rw [if_pos hv] at hnbe
    cases hnbe
  · rw [if_neg hv] at hnbe
    cases hnbe
    have hf := List.mem_filter.mp hnb
    exact ⟨nb, hf.1, of_decide_eq_true hf.2, hv, rfl⟩

theorem mstLoop_success (rooms : List Rect) (hnd : rooms.Nodup)
    (h2 : 2 ≤ rooms.length) (start : Rect) :
    ∀ (fuel : Nat) (visited : Finset Rect) (heap : List MstEntry)
      (mst : Finset MstEntry),
      MstInv rooms start visited heap mst →
      start ∈ rooms →
      heap.length + (rooms.length + 1) * (rooms.length - visited.card) < fuel →
      ∃ m, mstLoop rooms fuel visited heap mst = some m ∧
        m.card = rooms.length - 1 := by
  have hroomcard : rooms.toFinset.card = rooms.length := List.toFinset_card_of_nodup hnd
  intro fuel
  induction fuel with
  | zero => intro visited heap mst _ _ hfuel; omega
  | succ n ih =>
    intro visited heap mst hinv hsm hfuel
    by_cases hlt : mst.card < rooms.length - 1
    · -- the loop body runs; first, the heap is nonempty
      have hvc : visited.card ≤ rooms.length := hroomcard ▸ Finset.card_le_card hinv.vsub
      have hne : heap ≠ [] := by
        rcases hinv.phase with ⟨_, hh, _⟩ | ⟨_, hcard, _, hcover⟩
        · rw [hh]; simp
        · have hvlt : visited.card < rooms.toFinset.card := by omega
          have hex : ∃ u ∈ rooms.toFinset, u ∉ visited := by
            by_contra hall
            push_neg at hall
            have hsub : rooms.toFinset ⊆ visited := fun u hu => hall u hu
            have := Finset.card_le_card hsub
            omega
          obtain ⟨u, hu, hunv⟩ := hex
          obtain ⟨e, he, _⟩ := hcover u hu hunv
          intro hempty
          rw [hempty] at he
          cases he
      obtain ⟨⟨cost, src, dst⟩, rest, hpop⟩ := popMin_isSome heap hne
      obtain ⟨hmem, hrest⟩ := popMin_spec heap _ rest hpop
      have hrestlen : rest.length = heap.length - 1 := by
        rw [hrest]; exact List.length_erase_of_mem hmem
      have hheaplen : 1 ≤ heap.length := by
        cases heap
        · cases hmem
        · simp
      by_cases hdv : dst ∈ visited
      · -- the popped destination is already visited: continue
        rcases hinv.phase with ⟨hve, _, _⟩ | ⟨hst, hcard, hsd, hcover⟩
        · rw [hve] at hdv; cases hdv
        · have hinv2 : MstInv rooms start visited rest mst := by
            refine ⟨hinv.vsub, ?_, hinv.mdst, Or.inr ⟨hst, hcard, ?_, ?_⟩⟩
            · intro e he
              exact hinv.hdst e (List.mem_of_mem_erase (hrest ▸ he))
            · intro e he
              exact hsd e (List.mem_of_mem_erase (hrest ▸ he))
            · intro u hu hunv
              obtain ⟨e, he, hedst⟩ := hcover u hu hunv
              have hneq : e ≠ (cost, src, dst) := by
                intro heq
                rw [heq] at hedst
                exact hunv (hedst ▸ hdv)
              refine ⟨e, ?_, hedst⟩
              rw [hrest]
              exact (List.mem_erase_of_ne hneq).mpr he
          obtain ⟨m, hm, hmc⟩ := ih visited rest mst hinv2 hsm (by omega)
          exact ⟨m, by rw [mstLoop_step_skip rooms n visited heap mst cost src dst rest
            hpop hlt hdv]; exact hm, hmc⟩
      · -- a fresh destination is visited
        have hdroom : dst ∈ rooms.toFinset := hinv.hdst _ hmem
        have hL1 : 1 ≤ rooms.length := by omega
        rcases hinv.phase with ⟨hve, hh, hme⟩ | ⟨hst, hcard, hsd, hcover⟩
        · -- first iteration: the popped entry is the seed (0, start, start)
          have hment : ((cost, src, dst) : MstEntry) = (0, start, start) := by
            rw [hh] at hmem
            simpa using hmem
          have hcost : cost = 0 := congrArg Prod.fst hment
          have hsrc : src = start := congrArg (fun e : MstEntry => e.2.1) hment
          have hdstst : dst = start := congrArg (fun e : MstEntry => e.2.2) hment
          have hrest0 : rest = [] := by
            rw [hrest, hh, hment]
            simp
          have hmst2 : (if src ≠ dst then insert ((cost, src, dst) : MstEntry) mst else mst)
              = mst := by
            rw [if_neg (by rw [hsrc, hdstst]; simp)]
          set heap2 := rest ++ (rectAdj rooms dst).filterMap fun nb =>
            if nb ∈ insert dst visited then none
            else some (Rect.get_distance_to_sq dst nb, dst, nb) with hheap2
          have hinv2 : MstInv rooms start (insert dst visited) heap2 mst := by
            refine ⟨?_, ?_, ?_, Or.inr ⟨?_, ?_, ?_, ?_⟩⟩
            · rw [hve]
              intro u hu
              rw [Finset.mem_insert] at hu
              rcases hu with rfl | hu
              · exact hdroom
              · cases hu
            · intro e he
              rw [hheap2, hrest0, List.nil_append] at he
              obtain ⟨nb, hnb, _, _, rfl⟩ := pushed_mem_elim he
              exact List.mem_toFinset.mpr hnb
            · intro e he
              rw [hme] at he
              cases he
            · rw [hdstst]
              exact Finset.mem_insert_self start visited
            · rw [hme, hve]
              simp
            · intro e he
              rw [hheap2, hrest0, List.nil_append] at he
              obtain ⟨nb, _, hnbd, _, rfl⟩ := pushed_mem_elim he
              exact fun hc => hnbd hc.symm
            · intro u hu hunv
              refine ⟨(Rect.get_distance_to_sq dst u, dst, u), ?_, rfl⟩
              rw [hheap2, hrest0, List.nil_append, List.mem_filterMap]
              have hune : u ≠ dst := by
                intro heq
                exact hunv (heq ▸ Finset.mem_insert_self dst visited)
              refine ⟨u, List.mem_filter.mpr ⟨List.mem_toFinset.mp hu,
                decide_eq_true hune⟩, ?_⟩
              rw [if_neg (fun hc => hunv hc)]
          have hcard2 : (insert dst visited).card = 1 := by
            rw [hve]
            simp
          have hlen2 : heap2.length ≤ rooms.length := by
            rw [hheap2, hrest0, List.nil_append]
            calc ((rectAdj rooms dst).filterMap _).length
                ≤ (rectAdj rooms dst).length := List.length_filterMap_le _ _
              _ ≤ rooms.length := List.length_filter_le _ _
          have hmul : (rooms.length + 1) * (rooms.length - 1) + (rooms.length + 1)
              = (rooms.length + 1) * rooms.length := by
            have hsplit : rooms.length = (rooms.length - 1) + 1 := by omega
            calc (rooms.length + 1) * (rooms.length - 1) + (rooms.length + 1)
                = (rooms.length + 1) * ((rooms.length - 1) + 1) := by ring
              _ = (rooms.length + 1) * rooms.length := by rw [← hsplit]
          have hfuel0 : 1 + (rooms.length + 1) * rooms.length < n + 1 := by
            rw [hve, hh] at hfuel
            simpa using hfuel
          obtain ⟨m, hm, hmc⟩ := ih (insert dst visited) heap2 mst hinv2 hsm
            (by rw [hcard2]; omega)
          refine ⟨m, ?_, hmc⟩
          rw [mstLoop_step_visit rooms n visited heap mst cost src dst rest hpop hlt hdv,
            hmst2]
          exact hm
        · -- later iterations: a genuinely new vertex joins the tree
          have hsd2 : src ≠ dst := hsd _ hmem
          have hnew : ((cost, src, dst) : MstEntry) ∉ mst := by
            intro hin
            exact hdv (hinv.mdst _ hin)
          have hmst2 : (if src ≠ dst then insert ((cost, src, dst) : MstEntry) mst else mst)
              = insert (cost, src, dst) mst := if_pos hsd2
          set heap2 := rest ++ (rectAdj rooms dst).filterMap fun nb =>
            if nb ∈ insert dst visited then none
            else some (Rect.get_distance_to_sq dst nb, dst, nb) with hheap2
          have hinv2 : MstInv rooms start (insert dst visited) heap2
              (insert (cost, src, dst) mst) := by
            refine ⟨?_, ?_, ?_, Or.inr ⟨?_, ?_, ?_, ?_⟩⟩
            · exact Finset.insert_subset_iff.mpr ⟨hdroom, hinv.vsub⟩
            · intro e he
              rw [hheap2, List.mem_append] at he
              rcases he with he | he
              · exact hinv.hdst e (List.mem_of_mem_erase (hrest ▸ he))
              · obtain ⟨nb, hnb, _, _, rfl⟩ := pushed_mem_elim he
                exact List.mem_toFinset.mpr hnb
            · intro e he
              rw [Finset.mem_insert] at he
              rcases he with rfl | he
              · exact Finset.mem_insert_self dst visited
              · exact Finset.mem_insert_of_mem (hinv.mdst e he)
            · exact Finset.mem_insert_of_mem hst
            · rw [Finset.card_insert_of_not_mem hnew, Finset.card_insert_of_not_mem hdv]
              omega
            · intro e he
              rw [hheap2, List.mem_append] at he
              rcases he with he | he
              · exact hsd e (List.mem_of_mem_erase (hrest ▸ he))
              · obtain ⟨nb, _, hnbd, _, rfl⟩ := pushed_mem_elim he
                exact fun hc => hnbd hc.symm
            · intro u hu hunv
              rw [Finset.mem_insert] at hunv
              push_neg at hunv
              obtain ⟨e, he, hedst⟩ := hcover u hu hunv.2
              have hneq : e ≠ (cost, src, dst) := by
                intro heq
                rw [heq] at hedst
                exact hunv.1 hedst.symm
              refine ⟨e, ?_, hedst⟩
              rw [hheap2, List.mem_append]
              left
              rw [hrest]
              exact (List.mem_erase_of_ne hneq).mpr he
          have hvcard2 : (insert dst visited).card = visited.card + 1 :=
            Finset.card_insert_of_not_mem hdv
          have hvclt : visited.card < rooms.length := by omega
          have hlen2 : heap2.length ≤ rest.length + rooms.length := by
            rw [hheap2, List.length_append]
            have : ((rectAdj rooms dst).filterMap fun nb =>
                if nb ∈ insert dst visited then none
                else some (Rect.get_distance_to_sq dst nb, dst, nb)).length
                ≤ rooms.length := by
              calc ((rectAdj rooms dst).filterMap _).length
                  ≤ (rectAdj rooms dst).length := List.length_filterMap_le _ _
                _ ≤ rooms.length := List.length_filter_le _ _
            omega
          have hmul : (rooms.length + 1) * (rooms.length - (visited.card + 1))
                + (rooms.length + 1)
              = (rooms.length + 1) * (rooms.length - visited.card) := by
            have hsplit : rooms.length - visited.card
                = (rooms.length - (visited.card + 1)) + 1 := by omega
            calc (rooms.length + 1) * (rooms.length - (visited.card + 1))
                  + (rooms.length + 1)
                = (rooms.length + 1) * ((rooms.length - (visited.card + 1)) + 1) := by ring
              _ = (rooms.length + 1) * (rooms.length - visited.card) := by rw [← hsplit]
          obtain ⟨m, hm, hmc⟩ := ih (insert dst visited) heap2
            (insert (cost, src, dst) mst) hinv2 hsm (by rw [hvcard2]; omega)
          refine ⟨m, ?_, hmc⟩
          rw [mstLoop_step_visit rooms n visited heap mst cost src dst rest hpop hlt hdv,
            hmst2]
          exact hm
    · -- the loop exits: the built tree already has n - 1 edges
      refine ⟨mst, mstLoop_exit rooms n visited heap mst hlt, ?_⟩
      rcases hinv.phase with ⟨_, _, hme⟩ | ⟨_, hcard, _, _⟩
      · rw [hme] at hlt ⊢
        simp only [Finset.card_empty] at hlt ⊢
        omega
      · have hvc : visited.card ≤ rooms.length := hroomcard ▸ Finset.card_le_card hinv.vsub
        omega

/-- C9: on a complete graph over `n >= 2` distinct rooms, `create_mst`
terminates and returns a set of exactly `n - 1` edges: every pop either
discards an already-visited destination or visits a fresh room and adds
one edge, edges to every unvisited room stay available in the heap, and
the loop stops as soon as `n - 1` edges are collected. -/
theorem C9_create_mst_card (rooms : List Rect) (hnd : rooms.Nodup)
    (h2 : 2 ≤ rooms.length) :
    ∃ m, create_mst rooms (create_mst_fuel rooms.length) = some m ∧
      m.card = rooms.length - 1 := by
  match rooms, hnd, h2 with
  | start :: rest0, hnd, h2 =>
    have hinv0 : MstInv (start :: rest0) start ∅ [(0, start, start)] ∅ := by
      refine ⟨by simp, ?_, by simp, Or.inl ⟨rfl, rfl, rfl⟩⟩
      intro e he
      rcases List.mem_cons.mp he with rfl | he
      · simp
      · cases he
    have := mstLoop_success (start :: rest0) hnd h2 start
      (create_mst_fuel (start :: rest0).length) ∅ [(0, start, start)] ∅ hinv0
      (List.mem_cons_self start rest0) (by simp [create_mst_fuel]; omega)
    simpa [create_mst] using this

/-- C9 witness: the theorem applied to two concrete distinct rooms. -/
theorem C9_witness :
    ∃ m, create_mst [rectA, rectB] (create_mst_fuel 2) = some m ∧ m.card = 1 :=
  C9_create_mst_card [rectA, rectB] (by decide) (by decide)

/-- Modelled from the spec: the `Tile` sprite class used by
`game/vector_field.py` (its module `game/entities/base.py` is absent from
the sources).  A tile carries its grid position `tile_pos = (x, y)` and a
`blocking` flag; its center coordinates are modelled by its grid position
(the source scales grid positions to pixel centers by the positive constant
sprite size, which preserves differences up to that factor, and the spec
describes directions as position differences). -/
structure VTile where
  x : Int
  y : Int
  blocking : Bool
deriving DecidableEq, Repr

/-- The vector grid of `VectorField`: cell `[y][x]` holds a tile or nothing
(a falsy entry). -/
abbrev VGrid := List (List (Option VTile))

/-- `VectorField.width = vector_grid.shape[1]`. -/
def vwidth (g : VGrid) : Nat := (g.headD []).length

/-- `VectorField.height = vector_grid.shape[0]`. -/
def vheight (g : VGrid) : Nat := g.length

/-- Python (numpy) sequence indexing: a nonnegative index counts from the
front, an index in `[-len, -1]` counts from the back, anything else raises
IndexError (`none`). -/
def pyIndex {α : Type} (l : List α) (i : Int) : Option α :=
  if 0 ≤ i then l[i.toNat]?
  else if -(l.length : Int) ≤ i then l[(i + l.length).toNat]?
  else none

/-- `VectorField.get_tile_at_position`: `self.vector_grid[y][x]`, with
Python indexing on both axes; the outer `none` is the raised IndexError. -/
def get_tile_at_position (g : VGrid) (x y : Int) : Option (Option VTile) :=
  (pyIndex g y).bind fun row => pyIndex row x

/-- `VectorField._no_diagonal_offsets`. -/
def no_diagonal_offsets : List (Int × Int) := [(0, -1), (-1, 0), (1, 0), (0, 1)]

/-- `VectorField._diagonal_offsets`. -/
def diagonal_offsets : List (Int × Int) :=
  [(-1, -1), (0, -1), (1, -1), (-1, 0), (1, 0), (-1, 1), (0, 1), (1, 1)]

/-- The skip condition of `_get_neighbours`, EXACTLY as in the source:

```
if (x < 0 or x >= self.width) and (y < 0 or y >= self.height):
    continue
```

Note the `and`: a candidate is skipped only when BOTH coordinates are out
of range. -/
def nbSkip (g : VGrid) (x y : Int) : Bool :=
  decide ((x < 0 ∨ (vwidth g : Int) ≤ x) ∧ (y < 0 ∨ (vheight g : Int) ≤ y))

/-- One offset step of `_get_neighbours`: apply the (buggy) bounds check,
then index the grid (`none` = IndexError), skip falsy and blocking tiles,
and append the surviving neighbour. -/
def nbStep (g : VGrid) (t : VTile) (acc : List VTile) (off : Int × Int) :
    Option (List VTile) :=
  if nbSkip g (t.x + off.1) (t.y + off.2) then some acc
  else
    match get_tile_at_position g (t.x + off.1) (t.y + off.2) with
    | none => none
    | some none => some acc
    | some (some target) =>
      if target.blocking then some acc else some (acc ++ [target])

/-- `VectorField._get_neighbours` over a list of offsets. -/
def get_neighbours (g : VGrid) (t : VTile) (offsets : List (Int × Int)) :
    Option (List VTile) :=
  offsets.foldlM (nbStep g t) []

/-- Lookup in the insertion-ordered `distances` dict. -/
def dlookup (dists : List (VTile × Nat)) (t : VTile) : Option Nat :=
  match dists with
  | [] => none
  | (a, d) :: rest => if a = t then some d else dlookup rest t

/-- Lookup in the insertion-ordered `vector_dict`. -/
def vlookup (vd : List (VTile × (Int × Int))) (t : VTile) : Option (Int × Int) :=
  match vd with
  | [] => none
  | (a, v) :: rest => if a = t then some v else vlookup rest t

/-- One neighbour visit of the BFS in `recalculate_map`:

```
if neighbour not in distances:
    queue.put(neighbour)
    distances[neighbour] = 1 + distances[current]
```

The `none` branch is the KeyError `distances[current]` would raise (it
cannot occur: the current tile is always in the dict). -/
def bfsStep (current : VTile) (state : List VTile × List (VTile × Nat))
    (n : VTile) : Option (List VTile × List (VTile × Nat)) :=
  if dlookup state.2 n = none then
    match dlookup state.2 current with
    | none => none
    | some dc => some (state.1 ++ [n], state.2 ++ [(n, 1 + dc)])
  else some state

/-- The BFS loop of `recalculate_map` (FIFO queue, 4-neighbourhood).  The
source checks `if not current: continue`, but only real tiles are ever
enqueued, so the queue holds tiles. -/
def bfs_loop (g : VGrid) : Nat → List VTile → List (VTile × Nat) →
    Option (List (VTile × Nat))
  | 0, _, _ => none
  | _ + 1, [], dists => some dists
  | fuel + 1, current :: queueRest, dists =>
    match get_neighbours g current no_diagonal_offsets with
    | none => none
    | some ns =>
      match ns.foldlM (bfsStep current) (queueRest, dists) with
      | none => none
      | some (q2, d2) => bfs_loop g fuel q2 d2

/-- One neighbour visit of the minimum scan in the second pass:

```
distance = distances[neighbour]
if distances[neighbour] < min_dist:
    min_tile = neighbour
    min_dist = distance
```

The outer `none` is the KeyError raised when a walkable 8-neighbour of a
tile is not in the distance map; `min_dist` starts at `np.inf`, so the
first looked-up neighbour always becomes the minimum. -/
def minStep (dists : List (VTile × Nat)) (acc : Option (VTile × Nat))
    (n : VTile) : Option (Option (VTile × Nat)) :=
  match dlookup dists n with
  | none => none
  | some dn =>
    match acc with
    | none => some (some (n, dn))
    | some (mt, md) =>
      if dn < md then some (some (n, dn)) else some (some (mt, md))

/-- The minimum-distance scan over a neighbour list. -/
def min_neighbour (dists : List (VTile × Nat)) (ns : List VTile) :
    Option (Option (VTile × Nat)) :=
  ns.foldlM (minStep dists) none

/-- One tile of the second pass of `recalculate_map`: find the tile's full
8-neighbours, scan for the minimum-distance one, and record

```
self.vector_dict[tile] = -(tile.center_x - min_tile.center_x), -(
    tile.center_y - min_tile.center_y
)
```

when a minimum exists (nothing is recorded when the tile has no
neighbour). -/
def passTwoStep (g : VGrid) (dists : List (VTile × Nat))
    (vd : List (VTile × (Int × Int))) (td : VTile × Nat) :
    Option (List (VTile × (Int × Int))) :=
  match get_neighbours g td.1 diagonal_offsets with
  | none => none
  | some ns =>
    match min_neighbour dists ns with
    | none => none
    | some none => some vd
    | some (some (mt, _)) =>
      some (vd ++ [(td.1, (-(td.1.x - mt.x), -(td.1.y - mt.y)))])

/-- The second pass: `for tile in distances: ...` in insertion order. -/
def pass_two (g : VGrid) (dists : List (VTile × Nat)) :
    Option (List (VTile × (Int × Int))) :=
  dists.foldlM (passTwoStep g dists) []

/-- `VectorField.recalculate_map`: fetch the start tile (IndexError on a bad
position; a falsy start makes the second pass crash with AttributeError on
`tile.tile_pos`, hence `none`), run the BFS from
`distances = {start: 0}`, then the second pass; the result is the pair
`(vector_dict, distances)`. -/
def recalculate_map (g : VGrid) (dest : Int × Int) (fuel : Nat) :
    Option (List (VTile × (Int × Int)) × List (VTile × Nat)) :=
  match get_tile_at_position g dest.1 dest.2 with
  | none => none
  | some none => none
  | some (some start) =>
    match bfs_loop g fuel [start] [(start, 0)] with
    | none => none
    | some dists =>
      match pass_two g dists with
      | none => none
      | some vd => some (vd, dists)

/-- Shorthand tile constructor. -/
def vt (x y : Int) (b : Bool) : VTile := ⟨x, y, b⟩

/-- A 2-by-2 grid of walkable tiles. -/
def vfGrid2 : VGrid :=
  [[some (vt 0 0 false), some (vt 1 0 false)],
   [some (vt 0 1 false), some (vt 1 1 false)]]

/-- A 3-by-3 grid whose only walkable tiles are `(1, 1)` and `(0, 1)`. -/
def vfGrid : VGrid :=
  [[some (vt 0 0 true), some (vt 1 0 true), some (vt 2 0 true)],
   [some (vt 0 1 false), some (vt 1 1 false), some (vt 2 1 true)],
   [some (vt 0 2 true), some (vt 1 2 true), some (vt 2 2 true)]]

/-- C3: the bounds check of `_get_neighbours` is
`(x < 0 or x >= width) and (y < 0 or y >= height)` — `and` where the intent
(per the code comment and the spec) is `or` — so a candidate with one
coordinate out of range is NOT skipped and IS used to index the grid.  On
the walkable 2-by-2 grid: from tile `(1, 0)` the candidate `(2, 0)` is
indexed and raises IndexError (the whole call returns `none`), and from
tile `(0, 0)` the candidates `(0, -1)` and `(-1, 0)` wrap to the opposite
edge, so the returned neighbour list contains tiles reached through
out-of-bounds positions (and duplicates). -/
theorem C3_bounds_check_code_bug :
    get_neighbours vfGrid2 (vt 1 0 false) no_diagonal_offsets = none ∧
    get_neighbours vfGrid2 (vt 0 0 false) no_diagonal_offsets =
      some [vt 0 1 false, vt 1 0 false, vt 1 0 false, vt 0 1 false] := by
  decide

/-- C7 counterexample: on `vfGrid` with walkable destination `(1, 1)`, the
direction map entry for the destination is `(-1, 0)` — it points at the
minimum-distance neighbour `(0, 1)` (distance 1) — not the zero vector. -/
theorem C7_counterexample :
    recalculate_map vfGrid (1, 1) 20 =
      some ([(vt 1 1 false, (-1, 0)), (vt 0 1 false, (1, 0))],
            [(vt 1 1 false, 0), (vt 0 1 false, 1)]) ∧
    vlookup [(vt 1 1 false, (-1, 0)), (vt 0 1 false, (1, 0))] (vt 1 1 false) =
      some (-1, 0) ∧
    ((-1, 0) : Int × Int) ≠ (0, 0) := by
  decide

/-- All rows of the vector grid have the full width (numpy arrays are
rectangular). -/
def Rectangular (g : VGrid) : Prop := ∀ row ∈ g, row.length = vwidth g

/-- Every tile stored in the grid records its own cell coordinates as its
`tile_pos` (how the game builds the vector grid). -/
def Consistent (g : VGrid) : Prop :=
  ∀ (ny nx : Nat) (row : List (Option VTile)) (t : VTile),
    g[ny]? = some row → row[nx]? = some (some t) → t.x = nx ∧ t.y = ny

/-- A tile that is stored in some cell of the grid. -/
def Resident (g : VGrid) (t : VTile) : Prop :=
  ∃ (ny nx : Nat) (row : List (Option VTile)),
    g[ny]? = some row ∧ row[nx]? = some (some t)

theorem pyIndex_nonneg {α : Type} (l : List α) (i : Int) (h : 0 ≤ i) :
    pyIndex l i = l[i.toNat]? := by
  unfold pyIndex
  rw [if_pos h]

theorem pyIndex_cases {α : Type} {l : List α} {i : Int} {a : α}
    (h : pyIndex l i = some a) :
    (0 ≤ i ∧ l[i.toNat]? = some a) ∨
      (i < 0 ∧ -(l.length : Int) ≤ i ∧ l[(i + l.length).toNat]? = some a) := by
  unfold pyIndex at h
  split_ifs at h with h1 h2
  · exact Or.inl ⟨h1, h⟩
  · exact Or.inr ⟨by omega, h2, h⟩

theorem get_tile_elim {g : VGrid} {x y : Int} {c : Option VTile}
    (h : get_tile_at_position g x y = some c) :
    ∃ (row : List (Option VTile)), pyIndex g y = some row ∧ pyIndex row x = some c := by
  unfold get_tile_at_position at h
  exact Option.bind_eq_some.mp h

theorem get_tile_resident {g : VGrid} {x y : Int} {t : VTile}
    (h : get_tile_at_position g x y = some (some t)) : Resident g t := by
  obtain ⟨row, hrow, hcell⟩ := get_tile_elim h
  rcases pyIndex_cases hrow with ⟨_, hy⟩ | ⟨_, _, hy⟩ <;>
    rcases pyIndex_cases hcell with ⟨_, hx⟩ | ⟨_, _, hx⟩ <;>
    exact ⟨_, _, _, hy, hx⟩

theorem resident_cell {g : VGrid} {t : VTile}
    (hcons : Consistent g) (hres : Resident g t) :
    ∃ (row : List (Option VTile)),
      g[t.y.toNat]? = some row ∧ row[t.x.toNat]? = some (some t) ∧
      0 ≤ t.x ∧ 0 ≤ t.y := by
  obtain ⟨ny, nx, row, hrow, hcell⟩ := hres
  obtain ⟨hx, hy⟩ := hcons ny nx row t hrow hcell
  have hyn : t.y.toNat = ny := by omega
  have hxn : t.x.toNat = nx := by omega
  rw [hyn, hxn]
  exact ⟨row, hrow, hcell, by omega, by omega⟩

theorem resident_bounds {g : VGrid} {t : VTile}
    (hrect : Rectangular g) (hcons : Consistent g) (hres : Resident g t) :
    0 ≤ t.x ∧ 0 ≤ t.y ∧ t.x < (vwidth g : Int) ∧ t.y < (vheight g : Int) := by
  obtain ⟨row, hrow, hcell, hx0, hy0⟩ := resident_cell hcons hres
  have hylt : t.y.toNat < g.length := (List.getElem?_eq_some.mp hrow).1
  have hxlt : t.x.toNat < row.length := (List.getElem?_eq_some.mp hcell).1
  have hrl : row.length = vwidth g := hrect row (List.getElem?_mem hrow)
  have hh : vheight g = g.length := rfl
  rw [hrl] at hxlt
  exact ⟨hx0, hy0, by omega, by rw [hh]; omega⟩

theorem get_tile_self {g : VGrid} {t : VTile}
    (hcons : Consistent g) (hres : Resident g t) :
    get_tile_at_position g t.x t.y = some (some t) := by
  obtain ⟨row, hrow, hcell, hx0, hy0⟩ := resident_cell hcons hres
  unfold get_tile_at_position
  rw [pyIndex_nonneg g t.y hy0, hrow]
  simp only [Option.some_bind]
  rw [pyIndex_nonneg row t.x hx0, hcell]

theorem dlookup_mem {dists : List (VTile × Nat)} {t : VTile} {d : Nat}
    (h : dlookup dists t = some d) : (t, d) ∈ dists := by
  induction dists with
  | nil => cases h
  | cons hd rest ih =>
    obtain ⟨a, da⟩ := hd
    unfold dlookup at h
    split_ifs at h with ha
    · cases h
      exact ha ▸ List.mem_cons_self _ _
    · exact List.mem_cons_of_mem _ (ih h)

theorem dlookup_none_iff {dists : List (VTile × Nat)} {t : VTile} :
    dlookup dists t = none ↔ t ∉ dists.map Prod.fst := by
  induction dists with
  | nil => simp [dlookup]
  | cons hd rest ih =>
    obtain ⟨a, da⟩ := hd
    unfold dlookup
    by_cases ha : a = t
    · simp [ha]
    · rw [if_neg ha]
      simp only [List.map_cons, List.mem_cons]
      constructor
      · intro h hmem
        rcases hmem with heq | hmem
        · exact ha heq.symm
        · exact (ih.mp h) hmem
      · intro h
        exact ih.mpr fun hm => h (Or.inr hm)

theorem mem_dlookup {dists : List (VTile × Nat)} {t : VTile} {d : Nat}
    (hnd : (dists.map Prod.fst).Nodup) (hmem : (t, d) ∈ dists) :
    dlookup dists t = some d := by
  induction dists with
  | nil => cases hmem
  | cons hd rest ih =>
    obtain ⟨a, da⟩ := hd
    simp only [List.map_cons, List.nodup_cons] at hnd
    rcases List.mem_cons.mp hmem with heq | hmem2
    · simp only [Prod.mk.injEq] at heq
      obtain ⟨rfl, rfl⟩ := heq
      unfold dlookup
      rw [if_pos rfl]
    · have hne : a ≠ t := by
        intro heq
        exact hnd.1 (heq ▸ List.mem_map_of_mem Prod.fst hmem2)
      unfold dlookup
      rw [if_neg hne]
      exact ih hnd.2 hmem2

theorem dlookup_append_left {l1 l2 : List (VTile × Nat)} {t : VTile} {d : Nat}
    (h : dlookup l1 t = some d) : dlookup (l1 ++ l2) t = some d := by
  induction l1 with
  | nil => cases h
  | cons hd rest ih =>
    obtain ⟨a, da⟩ := hd
    have hshow : dlookup (((a, da) :: rest) ++ l2) t
        = if a = t then some da else dlookup (rest ++ l2) t := rfl
    rw [hshow]
    unfold dlookup at h
    split_ifs at h ⊢ with ha
    · exact h
    · exact ih h

theorem vlookup_mem {vd : List (VTile × (Int × Int))} {t : VTile} {v : Int × Int}
    (h : vlookup vd t = some v) : (t, v) ∈ vd := by
  induction vd with
  | nil => cases h
  | cons hd rest ih =>
    obtain ⟨a, va⟩ := hd
    unfold vlookup at h
    split_ifs at h with ha
    · cases h
      exact ha ▸ List.mem_cons_self _ _
    · exact List.mem_cons_of_mem _ (ih h)

theorem nbStep_cases {g : VGrid} {t : VTile} {acc acc1 : List VTile} {off : Int × Int}
    (h : nbStep g t acc off = some acc1) :
    acc1 = acc ∨ ∃ m, acc1 = acc ++ [m] ∧
      nbSkip g (t.x + off.1) (t.y + off.2) = false ∧
      get_tile_at_position g (t.x + off.1) (t.y + off.2) = some (some m) ∧
      m.blocking = false := by
  unfold nbStep at h
  split_ifs at h with hskip
  · cases h
    exact Or.inl rfl
  · split at h
    · cases h
    · cases h
      exact Or.inl rfl
    · rename_i target heq
      split_ifs at h with hb
      · cases h
        exact Or.inl rfl
      · cases h
        exact Or.inr ⟨target, rfl, by simpa using hskip, heq, by simpa using hb⟩

theorem nbStep_append {g : VGrid} {t : VTile} {acc : List VTile} {off : Int × Int}
    {m : VTile}
    (hskip : nbSkip g (t.x + off.1) (t.y + off.2) = false)
    (hti : get_tile_at_position g (t.x + off.1) (t.y + off.2) = some (some m))
    (hb : m.blocking = false) :
    nbStep g t acc off = some (acc ++ [m]) := by
  unfold nbStep
  rw [if_neg (by rw [hskip]; simp), hti]
  show (if m.blocking = true then some acc else some (acc ++ [m])) = some (acc ++ [m])
  rw [if_neg (by rw [hb]; simp)]

theorem nb_fold_sub {g : VGrid} {t : VTile} :
    ∀ (offs : List (Int × Int)) (acc ns : List VTile),
      offs.foldlM (nbStep g t) acc = some ns → ∀ a ∈ acc, a ∈ ns := by
  intro offs
  induction offs with
  | nil =>
    intro acc ns h a ha
    cases h
    exact ha
  | cons off rest ih =>
    intro acc ns h a ha
    rw [List.foldlM_cons] at h
    rcases hstep : nbStep g t acc off with _ | acc1
    · rw [hstep] at h
      cases h
    · rw [hstep] at h
      simp only [Option.bind_eq_bind, Option.some_bind] at h
      have hsub : ∀ b ∈ acc, b ∈ acc1 := by
        rcases nbStep_cases hstep with h1 | ⟨m, h1, _, _, _⟩
        · rw [h1]; exact fun b hb => hb
        · rw [h1]; exact fun b hb => List.mem_append_left _ hb
      exact ih acc1 ns h a (hsub a ha)

theorem nb_fold_mem {g : VGrid} {t : VTile} :
    ∀ (offs : List (Int × Int)) (acc ns : List VTile),
      offs.foldlM (nbStep g t) acc = some ns →
      ∀ off ∈ offs, ∀ m : VTile,
        nbSkip g (t.x + off.1) (t.y + off.2) = false →
        get_tile_at_position g (t.x + off.1) (t.y + off.2) = some (some m) →
        m.blocking = false → m ∈ ns := by
  intro offs
  induction offs with
  | nil =>
    intro acc ns h off hoff
    cases hoff
  | cons off0 rest ih =>
    intro acc ns h off hoff m hskip hti hb
    rw [List.foldlM_cons] at h
    rcases hstep : nbStep g t acc off0 with _ | acc1
    · rw [hstep] at h
      cases h
    · rw [hstep] at h
      simp only [Option.bind_eq_bind, Option.some_bind] at h
      rcases List.mem_cons.mp hoff with heq | hoff2
      · subst heq
        rw [nbStep_append hskip hti hb] at hstep
        have hacc1 : acc1 = acc ++ [m] := by
          cases hstep
          rfl
        exact nb_fold_sub rest acc1 ns h m (by rw [hacc1]; simp)
      · exact ih acc1 ns h off hoff2 m hskip hti hb

theorem nb_fold_src {g : VGrid} {t : VTile} :
    ∀ (offs : List (Int × Int)) (acc ns : List VTile),
      offs.foldlM (nbStep g t) acc = some ns →
      ∀ m ∈ ns, m ∈ acc ∨ ∃ off ∈ offs,
        nbSkip g (t.x + off.1) (t.y + off.2) = false ∧
        get_tile_at_position g (t.x + off.1) (t.y + off.2) = some (some m) ∧
        m.blocking = false := by
  intro offs
  induction offs with
  | nil =>
    intro acc ns h m hm
    cases h
    exact Or.inl hm
  | cons off0 rest ih =>
    intro acc ns h m hm
    rw [List.foldlM_cons] at h
    rcases hstep : nbStep g t acc off0 with _ | acc1
    · rw [hstep] at h
      cases h
    · rw [hstep] at h
      simp only [Option.bind_eq_bind, Option.some_bind] at h
      rcases ih acc1 ns h m hm with hin | ⟨off, hoff, hrest⟩
      · rcases nbStep_cases hstep with h1 | ⟨m0, h1, hsk, hti, hb⟩
        · rw [h1] at hin
          exact Or.inl hin
        · rw [h1] at hin
          rcases List.mem_append.mp hin with hin | hin
          · exact Or.inl hin
          · have hm0 : m = m0 := by simpa using hin
            subst hm0
            exact Or.inr ⟨off0, List.mem_cons_self _ _, hsk, hti, hb⟩
      · exact Or.inr ⟨off, List.mem_cons_of_mem _ hoff, hrest⟩

theorem nb_fold_nocrash {g : VGrid} {t : VTile} :
    ∀ (offs : List (Int × Int)) (acc ns : List VTile),
      offs.foldlM (nbStep g t) acc = some ns →
      ∀ off ∈ offs, nbSkip g (t.x + off.1) (t.y + off.2) = false →
        get_tile_at_position g (t.x + off.1) (t.y + off.2) ≠ none := by
  intro offs
  induction offs with
  | nil =>
    intro acc ns h off hoff
    cases hoff
  | cons off0 rest ih =>
    intro acc ns h off hoff hskip hti
    rw [List.foldlM_cons] at h
    rcases hstep : nbStep g t acc off0 with _ | acc1
    · rw [hstep] at h
      cases h
    · rw [hstep] at h
      simp only [Option.bind_eq_bind, Option.some_bind] at h
      rcases List.mem_cons.mp hoff with heq | hoff2
      · subst heq
        unfold nbStep at hstep
        rw [if_neg (by rw [hskip]; simp), hti] at hstep
        cases hstep
      · exact ih acc1 ns h off hoff2 hskip hti

theorem full_nb_bounds {g : VGrid} {t : VTile} {ns : List VTile}
    (hrect : Rectangular g) (hcons : Consistent g) (hres : Resident g t)
    (h : get_neighbours g t diagonal_offsets = some ns) :
    t.x + 1 < (vwidth g : Int) ∧ t.y + 1 < (vheight g : Int) := by
  obtain ⟨hx0, hy0, hxw, hyh⟩ := resident_bounds hrect hcons hres
  constructor
  · have hmem : ((1, 0) : Int × Int) ∈ diagonal_offsets := by decide
    have hskip : nbSkip g (t.x + (1, 0).1) (t.y + (1, 0).2) = false := by
      simp only [nbSkip, decide_eq_false_iff_not]
      intro hand
      rcases hand.2 with h1 | h1 <;> omega
    have hnc := nb_fold_nocrash diagonal_offsets [] ns h (1, 0) hmem hskip
    rcases hrow : pyIndex g (t.y + (1, 0).2) with _ | row
    · exact absurd (by unfold get_tile_at_position; rw [hrow]; rfl) hnc
    · have hin : pyIndex row (t.x + (1, 0).1) ≠ none := by
        intro hcell
        exact hnc (by unfold get_tile_at_position; rw [hrow]; simpa using hcell)
      have hx1 : (0 : Int) ≤ t.x + (1, 0).1 := by omega
      rw [pyIndex_nonneg row _ hx1] at hin
      have hlt : (t.x + (1, 0).1).toNat < row.length := by
        by_contra hge
        exact hin (List.getElem?_eq_none (by omega))
      have hrl : row.length = vwidth g := by
        rw [pyIndex_nonneg g _ (by omega)] at hrow
        exact hrect row (List.getElem?_mem hrow)
      rw [hrl] at hlt
      omega
  · have hmem : ((0, 1) : Int × Int) ∈ diagonal_offsets := by decide
    have hskip : nbSkip g (t.x + (0, 1).1) (t.y + (0, 1).2) = false := by
      simp only [nbSkip, decide_eq_false_iff_not]
      intro hand
      rcases hand.1 with h1 | h1 <;> omega
    have hnc := nb_fold_nocrash diagonal_offsets [] ns h (0, 1) hmem hskip
    rcases hrow : pyIndex g (t.y + (0, 1).2) with _ | row
    · exact absurd (by unfold get_tile_at_position; rw [hrow]; rfl) hnc
    · have hh : vheight g = g.length := rfl
      have hy1 : (0 : Int) ≤ t.y + (0, 1).2 := by omega
      rw [pyIndex_nonneg g _ hy1] at hrow
      have hlt : (t.y + (0, 1).2).toNat < g.length := (List.getElem?_eq_some.mp hrow).1
      rw [hh]
      omega

theorem nb_tile_pos {g : VGrid} {base : VTile} {off : Int × Int} {m : VTile}
    (hrect : Rectangular g) (hcons : Consistent g)
    (hbx : 0 ≤ base.x) (hby : 0 ≤ base.y)
    (ho1 : -1 ≤ off.1 ∧ off.1 ≤ 1) (ho2 : -1 ≤ off.2 ∧ off.2 ≤ 1)
    (ht : get_tile_at_position g (base.x + off.1) (base.y + off.2) = some (some m)) :
    (m.x = base.x + off.1 ∨ (base.x + off.1 = -1 ∧ m.x = (vwidth g : Int) - 1)) ∧
    (m.y = base.y + off.2 ∨ (base.y + off.2 = -1 ∧ m.y = (vheight g : Int) - 1)) := by
  obtain ⟨row, hrow, hcell⟩ := get_tile_elim ht
  have hrl : row.length = vwidth g := by
    rcases pyIndex_cases hrow with ⟨_, hy⟩ | ⟨_, _, hy⟩ <;>
      exact hrect row (List.getElem?_mem hy)
  have hh : vheight g = g.length := rfl
  rcases pyIndex_cases hrow with ⟨hy0, hy⟩ | ⟨hyneg, hyge, hy⟩ <;>
    rcases pyIndex_cases hcell with ⟨hx0, hx⟩ | ⟨hxneg, hxge, hx⟩ <;>
    obtain ⟨hcx, hcy⟩ := hcons _ _ _ _ hy hx <;>
    omega

/-- The loop invariant of the BFS in `recalculate_map`. -/
structure BfsInv (g : VGrid) (start : VTile) (q : List VTile)
    (dists : List (VTile × Nat)) : Prop where
  nd : (dists.map Prod.fst).Nodup
  startm : (start, 0) ∈ dists
  qmem : ∀ t ∈ q, ∃ d, (t, d) ∈ dists
  res : ∀ td ∈ dists, Resident g td.1
  walk : ∀ td ∈ dists, td.1.blocking = false ∨ td.1 = start
  parent : ∀ td ∈ dists, td.1 ≠ start →
    ∃ p dp off, (p, dp) ∈ dists ∧ td.2 = 1 + dp ∧ off ∈ no_diagonal_offsets ∧
      get_tile_at_position g (p.x + off.1) (p.y + off.2) = some (some td.1)

theorem bfs_initial_inv {g : VGrid} {start : VTile} (hres : Resident g start) :
    BfsInv g start [start] [(start, 0)] := by
  refine ⟨by simp, by simp, ?_, ?_, ?_, ?_⟩
  · intro t ht
    have heq : t = start := by simpa using ht
    subst heq
    exact ⟨0, by simp⟩
  · intro td htd
    have heq : td = (start, 0) := by simpa using htd
    subst heq
    exact hres
  · intro td htd
    have heq : td = (start, 0) := by simpa using htd
    subst heq
    exact Or.inr rfl
  · intro td htd hne
    have heq : td = (start, 0) := by simpa using htd
    subst heq
    exact absurd rfl hne

theorem bfs_fold_inv (g : VGrid) (start current : VTile) :
    ∀ (ns : List VTile) (q : List VTile) (dists : List (VTile × Nat))
      (out : List VTile × List (VTile × Nat)),
      (∀ n ∈ ns, ∃ off ∈ no_diagonal_offsets,
        get_tile_at_position g (current.x + off.1) (current.y + off.2) = some (some n) ∧
        n.blocking = false) →
      BfsInv g start q dists →
      (∃ dc, (current, dc) ∈ dists) →
      ns.foldlM (bfsStep current) (q, dists) = some out →
      BfsInv g start out.1 out.2 := by
  intro ns
  induction ns with
  | nil =>
    intro q dists out hns hinv hcur h
    cases h
    exact hinv
  | cons n rest ih =>
    intro q dists out hns hinv hcur h
    rw [List.foldlM_cons] at h
    by_cases hnew : dlookup dists n = none
    · obtain ⟨dc, hdc⟩ := hcur
      have hlook : dlookup dists current = some dc := mem_dlookup hinv.nd hdc
      have hstep : bfsStep current (q, dists) n
          = some (q ++ [n], dists ++ [(n, 1 + dc)]) := by
        unfold bfsStep
        rw [if_pos hnew, hlook]
      rw [hstep] at h
      simp only [Option.bind_eq_bind, Option.some_bind] at h
      have hinv2 : BfsInv g start (q ++ [n]) (dists ++ [(n, 1 + dc)]) := by
        obtain ⟨off, hoff, hti, hb⟩ := hns n (List.mem_cons_self n rest)
        refine ⟨?_, List.mem_append_left _ hinv.startm, ?_, ?_, ?_, ?_⟩
        · rw [List.map_append, List.nodup_append]
          refine ⟨hinv.nd, by simp, ?_⟩
          intro a ha hb2
          simp only [List.map_cons, List.map_nil, List.mem_singleton] at hb2
          subst hb2
          exact (dlookup_none_iff.mp hnew) ha
        · intro t ht
          rcases List.mem_append.mp ht with ht | ht
          · obtain ⟨d, hd⟩ := hinv.qmem t ht
            exact ⟨d, List.mem_append_left _ hd⟩
          · have heq : t = n := by simpa using ht
            subst heq
            exact ⟨1 + dc, List.mem_append_right _ (by simp)⟩
        · intro td htd
          rcases List.mem_append.mp htd with htd | htd
          · exact hinv.res td htd
          · have heq : td = (n, 1 + dc) := by simpa using htd
            subst heq
            exact get_tile_resident hti
        · intro td htd
          rcases List.mem_append.mp htd with htd | htd
          · exact hinv.walk td htd
          · have heq : td = (n, 1 + dc) := by simpa using htd
            subst heq
            exact Or.inl hb
        · intro td htd hne2
          rcases List.mem_append.mp htd with htd | htd
          · obtain ⟨p, dp, off2, hp, hsum, hoff2, hti2⟩ := hinv.parent td htd hne2
            exact ⟨p, dp, off2, List.mem_append_left _ hp, hsum, hoff2, hti2⟩
          · have heq : td = (n, 1 + dc) := by simpa using htd
            subst heq
            exact ⟨current, dc, off, List.mem_append_left _ hdc, rfl, hoff, hti⟩
      exact ih (q ++ [n]) _ out (fun n2 hn2 => hns n2 (List.mem_cons_of_mem _ hn2))
        hinv2 ⟨dc, List.mem_append_left _ hdc⟩ h
    · have hstep : bfsStep current (q, dists) n = some (q, dists) := by
        unfold bfsStep
        rw [if_neg hnew]
      rw [hstep] at h
      simp only [Option.bind_eq_bind, Option.some_bind] at h
      exact ih q dists out (fun n2 hn2 => hns n2 (List.mem_cons_of_mem _ hn2)) hinv hcur h

theorem bfs_loop_inv (g : VGrid) (start : VTile) :
    ∀ (fuel : Nat) (q : List VTile) (dists out : List (VTile × Nat)),
      BfsInv g start q dists →
      bfs_loop g fuel q dists = some out →
      BfsInv g start [] out := by
  intro fuel
  induction fuel with
  | zero =>
    intro q dists out _ h
    cases h
  | succ n ih =>
    intro q dists out hinv h
    match q with
    | [] =>
      simp only [bfs_loop] at h
      cases h
      exact ⟨hinv.nd, hinv.startm, fun t ht => absurd ht (List.not_mem_nil t),
        hinv.res, hinv.walk, hinv.parent⟩
    | current :: queueRest =>
      simp only [bfs_loop] at h
      rcases hns : get_neighbours g current no_diagonal_offsets with _ | ns
      · simp only [hns] at h
        cases h
      · simp only [hns] at h
        rcases hfold : ns.foldlM (bfsStep current) (queueRest, dists) with _ | qd
        · simp only [hfold] at h
          cases h
        · obtain ⟨q2, d2⟩ := qd
          simp only [hfold] at h
          have hnsfacts : ∀ n2 ∈ ns, ∃ off ∈ no_diagonal_offsets,
              get_tile_at_position g (current.x + off.1) (current.y + off.2)
                = some (some n2) ∧ n2.blocking = false := by
            intro n2 hn2
            rcases nb_fold_src no_diagonal_offsets [] ns hns n2 hn2 with hin | ⟨off, hoff, _, hti, hb⟩
            · cases hin
            · exact ⟨off, hoff, hti, hb⟩
          have hinvRest : BfsInv g start queueRest dists :=
            ⟨hinv.nd, hinv.startm, fun t ht => hinv.qmem t (List.mem_cons_of_mem _ ht),
              hinv.res, hinv.walk, hinv.parent⟩
          have hinv2 := bfs_fold_inv g start current ns queueRest dists (q2, d2)
            hnsfacts hinvRest (hinv.qmem current (List.mem_cons_self _ _)) hfold
          exact ih q2 d2 out hinv2 h

theorem minStep_elim {dists : List (VTile × Nat)} {acc : Option (VTile × Nat)}
    {n : VTile} {r : Option (VTile × Nat)}
    (h : minStep dists acc n = some r) :
    ∃ dn, dlookup dists n = some dn ∧
      ((acc = none ∧ r = some (n, dn)) ∨
        ∃ mt md, acc = some (mt, md) ∧
          ((dn < md ∧ r = some (n, dn)) ∨ (¬ dn < md ∧ r = some (mt, md)))) := by
  unfold minStep at h
  split at h
  · cases h
  · rename_i dn hd
    split at h
    · cases h
      exact ⟨dn, hd, Or.inl ⟨rfl, rfl⟩⟩
    · rename_i mt md
      split_ifs at h with hc
      · cases h
        exact ⟨dn, hd, Or.inr ⟨mt, md, rfl, Or.inl ⟨hc, rfl⟩⟩⟩
      · cases h
        exact ⟨dn, hd, Or.inr ⟨mt, md, rfl, Or.inr ⟨hc, rfl⟩⟩⟩

theorem min_fold_result (dists : List (VTile × Nat)) (ns0 : List VTile) :
    ∀ (ns : List VTile) (acc r : Option (VTile × Nat)),
      ns.foldlM (minStep dists) acc = some r →
      (∀ n ∈ ns, n ∈ ns0) →
      (∀ mt md, acc = some (mt, md) → dlookup dists mt = some md ∧ mt ∈ ns0) →
      ∀ mt md, r = some (mt, md) → dlookup dists mt = some md ∧ mt ∈ ns0 := by
  intro ns
  induction ns with
  | nil =>
    intro acc r h hsub hacc mt md hr
    cases h
    exact hacc mt md hr
  | cons n0 rest ih =>
    intro acc r h hsub hacc mt md hr
    rw [List.foldlM_cons] at h
    rcases hstep : minStep dists acc n0 with _ | acc1
    · rw [hstep] at h
      cases h
    · rw [hstep] at h
      simp only [Option.bind_eq_bind, Option.some_bind] at h
      obtain ⟨dn, hd, hcases⟩ := minStep_elim hstep
      have hacc1 : ∀ mt2 md2, acc1 = some (mt2, md2) →
          dlookup dists mt2 = some md2 ∧ mt2 ∈ ns0 := by
        intro mt2 md2 h1
        have hn0 : n0 ∈ ns0 := hsub n0 (List.mem_cons_self _ _)
        rcases hcases with ⟨_, hr1⟩ | ⟨mt3, md3, hacc3, hcc⟩
        · rw [h1] at hr1
          simp only [Option.some.injEq, Prod.mk.injEq] at hr1
          obtain ⟨rfl, rfl⟩ := hr1
          exact ⟨hd, hn0⟩
        · rcases hcc with ⟨_, hr1⟩ | ⟨_, hr1⟩
          · rw [h1] at hr1
            simp only [Option.some.injEq, Prod.mk.injEq] at hr1
            obtain ⟨rfl, rfl⟩ := hr1
            exact ⟨hd, hn0⟩
          · rw [h1] at hr1
            simp only [Option.some.injEq, Prod.mk.injEq] at hr1
            obtain ⟨rfl, rfl⟩ := hr1
            exact hacc mt2 md2 hacc3
      exact ih acc1 r h (fun n2 hn2 => hsub n2 (List.mem_cons_of_mem _ hn2)) hacc1 mt md hr

theorem min_fold_le (dists : List (VTile × Nat)) :
    ∀ (ns : List VTile) (acc r : Option (VTile × Nat)),
      ns.foldlM (minStep dists) acc = some r →
      ∀ mt md, r = some (mt, md) →
        (∀ amt amd, acc = some (amt, amd) → md ≤ amd) ∧
        (∀ n ∈ ns, ∀ dn, dlookup dists n = some dn → md ≤ dn) := by
  intro ns
  induction ns with
  | nil =>
    intro acc r h mt md hr
    cases h
    constructor
    · intro amt amd hacc
      rw [hr] at hacc
      simp only [Option.some.injEq, Prod.mk.injEq] at hacc
      omega
    · intro n hn
      cases hn
  | cons n0 rest ih =>
    intro acc r h mt md hr
    rw [List.foldlM_cons] at h
    rcases hstep : minStep dists acc n0 with _ | acc1
    · rw [hstep] at h
      cases h
    · rw [hstep] at h
      simp only [Option.bind_eq_bind, Option.some_bind] at h
      obtain ⟨hA, hB⟩ := ih acc1 r h mt md hr
      obtain ⟨dn, hd, hcases⟩ := minStep_elim hstep
      constructor
      · intro amt amd hacc
        rcases hcases with ⟨hnone, _⟩ | ⟨mt3, md3, hacc3, hcc⟩
        · rw [hnone] at hacc
          cases hacc
        · rw [hacc3] at hacc
          simp only [Option.some.injEq, Prod.mk.injEq] at hacc
          obtain ⟨heq1, heq2⟩ := hacc
          rcases hcc with ⟨hc, hr1⟩ | ⟨hc, hr1⟩
          · have hle := hA _ _ hr1
            omega
          · have hle := hA _ _ hr1
            omega
      · intro n hn dn2 hdn2
        rcases List.mem_cons.mp hn with heq | hn2
        · have hdneq : dn = dn2 := by
            rw [heq, hd] at hdn2
            simpa using hdn2
          rcases hcases with ⟨_, hr1⟩ | ⟨mt3, md3, _, hcc⟩
          · have hle := hA _ _ hr1
            omega
          · rcases hcc with ⟨hc, hr1⟩ | ⟨hc, hr1⟩
            · have hle := hA _ _ hr1
              omega
            · have hle := hA _ _ hr1
              omega
        · exact hB n hn2 dn2 hdn2

theorem min_fold_some_acc (dists : List (VTile × Nat)) :
    ∀ (ns : List VTile) (p : VTile × Nat) (r : Option (VTile × Nat)),
      ns.foldlM (minStep dists) (some p) = some r → ∃ p2, r = some p2 := by
  intro ns
  induction ns with
  | nil =>
    intro p r h
    cases h
    exact ⟨p, rfl⟩
  | cons n0 rest ih =>
    intro p r h
    rw [List.foldlM_cons] at h
    rcases hstep : minStep dists (some p) n0 with _ | acc1
    · rw [hstep] at h
      cases h
    · rw [hstep] at h
      simp only [Option.bind_eq_bind, Option.some_bind] at h
      obtain ⟨dn, hd, hcases⟩ := minStep_elim hstep
      rcases hcases with ⟨habs, _⟩ | ⟨mt3, md3, _, hcc⟩
      · cases habs
      · rcases hcc with ⟨_, hr1⟩ | ⟨_, hr1⟩
        · rw [hr1] at h
          exact ih _ r h
        · rw [hr1] at h
          exact ih _ r h

theorem min_fold_progress (dists : List (VTile × Nat)) :
    ∀ (ns : List VTile) (r : Option (VTile × Nat)),
      ns.foldlM (minStep dists) none = some r → ns ≠ [] → ∃ p2, r = some p2 := by
  intro ns
  match ns with
  | [] =>
    intro r _ hne
    exact absurd rfl hne
  | n0 :: rest =>
    intro r h _
    rw [List.foldlM_cons] at h
    rcases hstep : minStep dists none n0 with _ | acc1
    · rw [hstep] at h
      cases h
    · rw [hstep] at h
      simp only [Option.bind_eq_bind, Option.some_bind] at h
      obtain ⟨dn, hd, hcases⟩ := minStep_elim hstep
      rcases hcases with ⟨_, hr1⟩ | ⟨mt3, md3, habs, _⟩
      · rw [hr1] at h
        exact min_fold_some_acc dists rest _ r h
      · cases habs

theorem passTwoStep_elim {g : VGrid} {dists : List (VTile × Nat)}
    {vd vd1 : List (VTile × (Int × Int))} {td : VTile × Nat}
    (h : passTwoStep g dists vd td = some vd1) :
    ∃ ns r, get_neighbours g td.1 diagonal_offsets = some ns ∧
      min_neighbour dists ns = some r ∧
      ((r = none ∧ vd1 = vd) ∨
        ∃ mt md, r = some (mt, md) ∧
          vd1 = vd ++ [(td.1, (-(td.1.x - mt.x), -(td.1.y - mt.y)))]) := by
  unfold passTwoStep at h
  split at h
  · cases h
  · rename_i ns hns
    split at h
    · cases h
    · rename_i hmin
      cases h
      exact ⟨ns, none, hns, hmin, Or.inl ⟨rfl, rfl⟩⟩
    · rename_i mt md hmin
      cases h
      exact ⟨ns, some (mt, md), hns, hmin, Or.inr ⟨mt, md, rfl, rfl⟩⟩

theorem pass_two_fold_sub (g : VGrid) (dists : List (VTile × Nat)) :
    ∀ (l : List (VTile × Nat)) (vd0 out : List (VTile × (Int × Int))),
      l.foldlM (passTwoStep g dists) vd0 = some out → ∀ a ∈ vd0, a ∈ out := by
  intro l
  induction l with
  | nil =>
    intro vd0 out h a ha
    cases h
    exact ha
  | cons td rest ih =>
    intro vd0 out h a ha
    rw [List.foldlM_cons] at h
    rcases hstep : passTwoStep g dists vd0 td with _ | vd1
    · rw [hstep] at h
      cases h
    · rw [hstep] at h
      simp only [Option.bind_eq_bind, Option.some_bind] at h
      obtain ⟨ns, r, _, _, hcases⟩ := passTwoStep_elim hstep
      rcases hcases with ⟨_, hv⟩ | ⟨mt, md, _, hv⟩
      · rw [hv] at h
        exact ih _ out h a ha
      · rw [hv] at h
        exact ih _ out h a (List.mem_append_left _ ha)

theorem pass_two_fold_mem (g : VGrid) (dists : List (VTile × Nat)) :
    ∀ (l : List (VTile × Nat)) (vd0 out : List (VTile × (Int × Int))),
      l.foldlM (passTwoStep g dists) vd0 = some out →
      ∀ td ∈ l, ∃ ns r, get_neighbours g td.1 diagonal_offsets = some ns ∧
        min_neighbour dists ns = some r ∧
        ∀ mt md, r = some (mt, md) →
          (td.1, (-(td.1.x - mt.x), -(td.1.y - mt.y))) ∈ out := by
  intro l
  induction l with
  | nil =>
    intro vd0 out h td htd
    cases htd
  | cons td0 rest ih =>
    intro vd0 out h td htd
    rw [List.foldlM_cons] at h
    rcases hstep : passTwoStep g dists vd0 td0 with _ | vd1
    · rw [hstep] at h
      cases h
    · rw [hstep] at h
      simp only [Option.bind_eq_bind, Option.some_bind] at h
      rcases List.mem_cons.mp htd with heq | htd2
      · subst heq
        obtain ⟨ns, r, hns, hmin, hcases⟩ := passTwoStep_elim hstep
        refine ⟨ns, r, hns, hmin, ?_⟩
        intro mt md hr
        rcases hcases with ⟨hrn, _⟩ | ⟨mt2, md2, hr2, hvd1⟩
        · rw [hrn] at hr
          cases hr
        · rw [hr2] at hr
          simp only [Option.some.injEq, Prod.mk.injEq] at hr
          obtain ⟨heq1, heq2⟩ := hr
          subst heq1
          subst heq2
          exact pass_two_fold_sub g dists rest vd1 out h _
            (by rw [hvd1]; exact List.mem_append_right _ (by simp))
      · exact ih vd1 out h td htd2

theorem pass_two_fold_src (g : VGrid) (dists : List (VTile × Nat)) :
    ∀ (l : List (VTile × Nat)) (vd0 out : List (VTile × (Int × Int))),
      l.foldlM (passTwoStep g dists) vd0 = some out →
      ∀ a ∈ out, a ∈ vd0 ∨ ∃ td ∈ l, ∃ ns mt md,
        get_neighbours g td.1 diagonal_offsets = some ns ∧
        min_neighbour dists ns = some (some (mt, md)) ∧
        a = (td.1, (-(td.1.x - mt.x), -(td.1.y - mt.y))) := by
  intro l
  induction l with
  | nil =>
    intro vd0 out h a ha
    cases h
    exact Or.inl ha
  | cons td0 rest ih =>
    intro vd0 out h a ha
    rw [List.foldlM_cons] at h
    rcases hstep : passTwoStep g dists vd0 td0 with _ | vd1
    · rw [hstep] at h
      cases h
    · rw [hstep] at h
      simp only [Option.bind_eq_bind, Option.some_bind] at h
      obtain ⟨ns, r, hns, hmin, hcases⟩ := passTwoStep_elim hstep
      rcases ih vd1 out h a ha with hin | ⟨td, htd, hrest⟩
      · rcases hcases with ⟨_, hv⟩ | ⟨mt, md, hr2, hvd1⟩
        · rw [hv] at hin
          exact Or.inl hin
        · rw [hvd1] at hin
          rcases List.mem_append.mp hin with hin | hin
          · exact Or.inl hin
          · have heq : a = (td0.1, (-(td0.1.x - mt.x), -(td0.1.y - mt.y))) := by
              simpa using hin
            exact Or.inr ⟨td0, List.mem_cons_self _ _, ns, mt, md, hns,
              hr2 ▸ hmin, heq⟩
      · exact Or.inr ⟨td, List.mem_cons_of_mem _ htd, hrest⟩

theorem recalculate_elim {g : VGrid} {dest : Int × Int} {fuel : Nat}
    {vd : List (VTile × (Int × Int))} {dists : List (VTile × Nat)}
    (h : recalculate_map g dest fuel = some (vd, dists)) :
    ∃ start, get_tile_at_position g dest.1 dest.2 = some (some start) ∧
      bfs_loop g fuel [start] [(start, 0)] = some dists ∧
      pass_two g dists = some vd := by
  unfold recalculate_map at h
  split at h
  · cases h
  · cases h
  · rename_i start hti
    split at h
    · cases h
    · rename_i d2 hb
      split at h
      · cases h
      · rename_i v2 hp
        simp only [Option.some.injEq, Prod.mk.injEq] at h
        obtain ⟨rfl, rfl⟩ := h
        exact ⟨start, hti, hb, hp⟩

/-- Bounded check that a grid cell's stored tile records its own cell
coordinates. -/
def cellOkB (ny nx : Nat) : Option VTile → Bool
  | none => true
  | some t => decide (t.x = nx ∧ t.y = ny)

theorem consistent_of_cells {g : VGrid}
    (h : ∀ ny, ny < g.length → ∀ nx, nx < (g.getD ny []).length →
      cellOkB ny nx ((g.getD ny []).getD nx none) = true) :
    Consistent g := by
  intro ny nx row t hrow hcell
  have hny : ny < g.length := (List.getElem?_eq_some.mp hrow).1
  have hnx : nx < row.length := (List.getElem?_eq_some.mp hcell).1
  have hrowD : g.getD ny [] = row := by
    rw [List.getD_eq_getElem?_getD, hrow]
    rfl
  have hcellD : row.getD nx none = some t := by
    rw [List.getD_eq_getElem?_getD, hcell]
    rfl
  have h2 := h ny hny nx (by rw [hrowD]; exact hnx)
  rw [hrowD, hcellD] at h2
  simp only [cellOkB, decide_eq_true_eq] at h2
  exact h2

theorem vfGrid_rect : Rectangular vfGrid := by
  unfold Rectangular
  decide

theorem cardinal_offset_facts :
    ∀ off ∈ no_diagonal_offsets,
      (-off.1, -off.2) ∈ diagonal_offsets ∧
      -1 ≤ off.1 ∧ off.1 ≤ 1 ∧ -1 ≤ off.2 ∧ off.2 ≤ 1 := by
  decide

theorem diagonal_offset_facts :
    ∀ off ∈ diagonal_offsets,
      ¬(off.1 = 0 ∧ off.2 = 0) ∧
      -1 ≤ off.1 ∧ off.1 ≤ 1 ∧ -1 ≤ off.2 ∧ off.2 ≤ 1 := by
  decide

/-- C8: FlowField monotonicity.  On a rectangular, consistent vector grid
with a walkable destination tile, whenever `recalculate_map` succeeds, every
tile `t` of the distance map other than the destination gets an entry in the
direction map whose vector `(-(t.x - mt.x), -(t.y - mt.y))` points at a
minimum-distance 8-neighbour `mt` with `distance(mt) < distance(t)`. -/
theorem C8_flowfield_monotonic (g : VGrid) (dest : Int × Int) (fuel : Nat)
    (vd : List (VTile × (Int × Int))) (dists : List (VTile × Nat))
    (start t : VTile) (dt : Nat)
    (hrect : Rectangular g) (hcons : Consistent g)
    (hstart : get_tile_at_position g dest.1 dest.2 = some (some start))
    (hwalk : start.blocking = false)
    (h : recalculate_map g dest fuel = some (vd, dists))
    (htmem : (t, dt) ∈ dists) (hne : t ≠ start) :
    ∃ mt md, dlookup dists mt = some md ∧ md < dt ∧
      (t, (-(t.x - mt.x), -(t.y - mt.y))) ∈ vd := by
  obtain ⟨start2, hti2, hbfs, hp2⟩ := recalculate_elim h
  rw [hstart] at hti2
  have hseq : start = start2 := by simpa using hti2
  subst hseq
  have hres : Resident g start := get_tile_resident hstart
  have hinv : BfsInv g start [] dists :=
    bfs_loop_inv g start fuel [start] [(start, 0)] dists (bfs_initial_inv hres) hbfs
  obtain ⟨ns, r, hns0, hmin, hrec0⟩ :=
    pass_two_fold_mem g dists dists [] vd hp2 (t, dt) htmem
  have hns : get_neighbours g t diagonal_offsets = some ns := hns0
  have hrec : ∀ mt md, r = some (mt, md) →
      (t, (-(t.x - mt.x), -(t.y - mt.y))) ∈ vd := hrec0
  obtain ⟨p, dp, off, hpmem, hsum0, hoffmem, htip0⟩ :=
    hinv.parent (t, dt) htmem hne
  have hsum : dt = 1 + dp := hsum0
  have htip : get_tile_at_position g (p.x + off.1) (p.y + off.2)
      = some (some t) := htip0
  have hrest : Resident g t := hinv.res (t, dt) htmem
  obtain ⟨htx0, hty0, htxw, htyh⟩ := resident_bounds hrect hcons hrest
  obtain ⟨hwx, hwy⟩ := full_nb_bounds hrect hcons hrest hns
  have hpres : Resident g p := hinv.res (p, dp) hpmem
  obtain ⟨hpx0, hpy0, hpxw, hpyh⟩ := resident_bounds hrect hcons hpres
  obtain ⟨hnegmem, ho1l, ho1r, ho2l, ho2r⟩ := cardinal_offset_facts off hoffmem
  have hpos := nb_tile_pos hrect hcons hpx0 hpy0 ⟨ho1l, ho1r⟩ ⟨ho2l, ho2r⟩ htip
  have htxeq : t.x = p.x + off.1 := by
    rcases hpos.1 with h1 | ⟨h1, h2⟩
    · exact h1
    · omega
  have htyeq : t.y = p.y + off.2 := by
    rcases hpos.2 with h1 | ⟨h1, h2⟩
    · exact h1
    · omega
  have hwalkp : p.blocking = false ∨ p = start := hinv.walk (p, dp) hpmem
  have hblockp : p.blocking = false := by
    rcases hwalkp with hb | hb
    · exact hb
    · rw [hb]
      exact hwalk
  have hskipp : nbSkip g (t.x + -off.1) (t.y + -off.2) = false := by
    have h1 : t.x + -off.1 = p.x := by omega
    have h2 : t.y + -off.2 = p.y := by omega
    rw [h1, h2]
    simp only [nbSkip, decide_eq_false_iff_not]
    intro hand
    rcases hand.1 with hx | hx <;> omega
  have htipp : get_tile_at_position g (t.x + -off.1) (t.y + -off.2)
      = some (some p) := by
    have h1 : t.x + -off.1 = p.x := by omega
    have h2 : t.y + -off.2 = p.y := by omega
    rw [h1, h2]
    exact get_tile_self hcons hpres
  have hpns : p ∈ ns :=
    nb_fold_mem diagonal_offsets [] ns hns (-off.1, -off.2) hnegmem p
      hskipp htipp hblockp
  obtain ⟨p2, hr⟩ := min_fold_progress dists ns r hmin (List.ne_nil_of_mem hpns)
  obtain ⟨mt, md⟩ := p2
  have hdmt := min_fold_result dists ns ns none r hmin (fun n hn => hn)
    (fun mt2 md2 h2 => Option.noConfusion h2) mt md hr
  have hdlp : dlookup dists p = some dp := mem_dlookup hinv.nd hpmem
  have hle := (min_fold_le dists ns none r hmin mt md hr).2 p hpns dp hdlp
  exact ⟨mt, md, hdmt.1, by omega, hrec mt md hr⟩

/-- C8 witness: the theorem applied to the concrete 3-by-3 grid `vfGrid`
with destination `(1, 1)` and the tile `(0, 1)` at distance 1. -/
theorem C8_witness :
    Rectangular vfGrid ∧ Consistent vfGrid ∧
    get_tile_at_position vfGrid 1 1 = some (some (vt 1 1 false)) ∧
    (vt 1 1 false).blocking = false ∧
    recalculate_map vfGrid (1, 1) 20 =
      some ([(vt 1 1 false, (-1, 0)), (vt 0 1 false, (1, 0))],
            [(vt 1 1 false, 0), (vt 0 1 false, 1)]) ∧
    (vt 0 1 false, 1) ∈ [(vt 1 1 false, 0), (vt 0 1 false, 1)] ∧
    vt 0 1 false ≠ vt 1 1 false ∧
    (∃ mt md, dlookup [(vt 1 1 false, 0), (vt 0 1 false, 1)] mt = some md ∧
      md < 1 ∧
      ((vt 0 1 false),
        (-((vt 0 1 false).x - mt.x), -((vt 0 1 false).y - mt.y))) ∈
        [(vt 1 1 false, (-1, 0)), (vt 0 1 false, (1, 0))]) :=
  ⟨vfGrid_rect, consistent_of_cells (by decide), by decide, by decide, by decide,
   by decide, by decide,
   C8_flowfield_monotonic vfGrid (1, 1) 20
     [(vt 1 1 false, (-1, 0)), (vt 0 1 false, (1, 0))]
     [(vt 1 1 false, 0), (vt 0 1 false, 1)]
     (vt 1 1 false) (vt 0 1 false) 1
     vfGrid_rect (consistent_of_cells (by decide)) (by decide) (by decide)
     (by decide) (by decide) (by decide)⟩

/-- C7 amended: on a rectangular, consistent grid, when the direction map
produced by a successful `recalculate_map` holds an entry for the
destination tile, that entry's vector is the offset towards the
minimum-distance 8-neighbour `mt` of the destination — and it is NEVER the
zero vector (the chosen neighbour always sits at a different cell). -/
theorem C7_destination_vector_amended (g : VGrid) (dest : Int × Int)
    (fuel : Nat) (vd : List (VTile × (Int × Int))) (dists : List (VTile × Nat))
    (start : VTile) (v : Int × Int)
    (hrect : Rectangular g) (hcons : Consistent g)
    (hstart : get_tile_at_position g dest.1 dest.2 = some (some start))
    (h : recalculate_map g dest fuel = some (vd, dists))
    (hv : vlookup vd start = some v) :
    ∃ mt md, dlookup dists mt = some md ∧
      v = (-(start.x - mt.x), -(start.y - mt.y)) ∧ v ≠ (0, 0) := by
  obtain ⟨start2, hti2, hbfs, hp2⟩ := recalculate_elim h
  rw [hstart] at hti2
  have hseq : start = start2 := by simpa using hti2
  subst hseq
  have hres : Resident g start := get_tile_resident hstart
  have hmemvd : (start, v) ∈ vd := vlookup_mem hv
  rcases pass_two_fold_src g dists dists [] vd hp2 (start, v) hmemvd with
    hin | ⟨td, htd, ns, mt, md, hns, hmin, heq⟩
  · cases hin
  · simp only [Prod.mk.injEq] at heq
    obtain ⟨hst, hveq⟩ := heq
    rw [← hst] at hns hveq
    have hdmt := min_fold_result dists ns ns none (some (mt, md)) hmin
      (fun n hn => hn) (fun mt2 md2 h2 => Option.noConfusion h2) mt md rfl
    rcases nb_fold_src diagonal_offsets [] ns hns mt hdmt.2 with
      hin2 | ⟨off, hoffmem, hskip, htim, hbm⟩
    · cases hin2
    · obtain ⟨hsx0, hsy0, hsxw, hsyh⟩ := resident_bounds hrect hcons hres
      obtain ⟨hwx, hwy⟩ := full_nb_bounds hrect hcons hres hns
      obtain ⟨hoffne, ho1l, ho1r, ho2l, ho2r⟩ := diagonal_offset_facts off hoffmem
      have hpos := nb_tile_pos hrect hcons hsx0 hsy0 ⟨ho1l, ho1r⟩ ⟨ho2l, ho2r⟩ htim
      refine ⟨mt, md, hdmt.1, hveq, ?_⟩
      rw [hveq]
      intro hc
      simp only [Prod.mk.injEq] at hc
      have hp1 := hpos.1
      have hp2x := hpos.2
      omega

/-- C7 amended witness: the theorem applied to the concrete grid `vfGrid`
with destination `(1, 1)`, whose direction-map entry is `(-1, 0)`. -/
theorem C7_destination_vector_witness :
    Rectangular vfGrid ∧ Consistent vfGrid ∧
    get_tile_at_position vfGrid 1 1 = some (some (vt 1 1 false)) ∧
    recalculate_map vfGrid (1, 1) 20 =
      some ([(vt 1 1 false, (-1, 0)), (vt 0 1 false, (1, 0))],
            [(vt 1 1 false, 0), (vt 0 1 false, 1)]) ∧
    vlookup [(vt 1 1 false, (-1, 0)), (vt 0 1 false, (1, 0))] (vt 1 1 false) =
      some (-1, 0) ∧
    (∃ mt md, dlookup [(vt 1 1 false, 0), (vt 0 1 false, 1)] mt = some md ∧
      ((-1, 0) : Int × Int) =
        (-((vt 1 1 false).x - mt.x), -((vt 1 1 false).y - mt.y)) ∧
      ((-1, 0) : Int × Int) ≠ (0, 0)) :=
  ⟨vfGrid_rect, consistent_of_cells (by decide), by decide, by decide, by decide,
   C7_destination_vector_amended vfGrid (1, 1) 20
     [(vt 1 1 false, (-1, 0)), (vt 0 1 false, (1, 0))]
     [(vt 1 1 false, 0), (vt 0 1 false, 1)]
     (vt 1 1 false) (-1, 0)
     vfGrid_rect (consistent_of_cells (by decide)) (by decide) (by decide)
     (by decide)⟩

/-- `place_tile` from `src/src/hades/generation/map.py` (lines 499-528): pop
the LAST entry of `possible_tiles` (`none` is the IndexError `pop` raises on
an empty list), stamp the target tile there with NO checks, and return the
player position for a PLAYER tile and the empty tuple `()` otherwise; the
returned Bool is the truthiness of that return value (`(x, y)` is truthy,
`()` is falsy). -/
def place_tile (g : Grid) (target : TileType) (pt : List (Nat × Nat)) :
    Option (Grid × List (Nat × Nat) × Bool) :=
  match pt.getLast? with
  | none => none
  | some p => some (setCell g p.1 p.2 target, pt.dropLast,
      decide (target = TileType.player))

/-- The per-item-type loop of `create_map` (lines 188-199):

```
tiles_placed = 0
tries = ITEM_PLACE_TRIES
while tiles_placed < map_constants[tile] and tries != 0:
    if place_tile(grid, tile, possible_tiles): tiles_placed += 1
    else: tries -= 1
```

fuel-limited (`none` = out of fuel, or the IndexError from `place_tile`). -/
def itemLoop (tile : TileType) (count : Nat) :
    Nat → Nat → Nat → Grid → List (Nat × Nat) →
    Option (Grid × List (Nat × Nat))
  | 0, _, _, _, _ => none
  | fuel + 1, tilesPlaced, tries, g, pt =>
    if tilesPlaced < count ∧ tries ≠ 0 then
      match place_tile g tile pt with
      | none => none
      | some (g2, pt2, placed) =>
        if placed then itemLoop tile count fuel (tilesPlaced + 1) tries g2 pt2
        else itemLoop tile count fuel tilesPlaced (tries - 1) g2 pt2
    else some (g, pt)

/-- The placement phase of `create_map` (lines 181-199): one PLAYER
placement from the shuffled FLOOR-position list (the shuffled list is a
parameter), then the item loop for each item type of `ITEM_DISTRIBUTION` in
order, threading the grid and the candidate list. -/
def placementPhase (g : Grid) (pt : List (Nat × Nat))
    (items : List (TileType × Nat)) (tries fuel : Nat) :
    Option (Grid × List (Nat × Nat)) :=
  match place_tile g TileType.player pt with
  | none => none
  | some (g2, pt2, _) =>
    items.foldlM (fun st it => itemLoop it.1 it.2 fuel 0 tries st.1 st.2)
      (g2, pt2)

/-- `Map._place_tile` from `src/game/generation/map.py` (lines 381-430) at
an already-sampled candidate position `pos = (x, y)` (the `np.random.randint`
sample is a parameter).  `ENEMIES` sits in `game/constants/entity.py` and
`SAFE_SPAWN_RADIUS` in `game/constants/generation.py`, both absent from the
snapshot, so enemy-ness is a Boolean parameter and the radius check
`np.hypot(ppos.x - x, ppos.y - y) < SAFE_SPAWN_RADIUS` is modelled on
squared integers (`rsq` stands for the squared radius; `hypot a b < R` iff
`a^2 + b^2 < R^2` for `R ≥ 0`, `sqrt` being strictly monotone). -/
def place_tile_old (g : Grid) (isEnemy : Bool) (entity : TileType)
    (ppos : Nat × Nat) (rsq : Int) (pos : Nat × Nat) : Grid × Bool :=
  if isEnemy = true ∧
      ((ppos.1 : Int) - pos.1) ^ 2 + ((ppos.2 : Int) - pos.2) ^ 2 < rsq then
    (g, false)
  else if cellAt g pos.2 pos.1 ≠ TileType.floor then (g, false)
  else (setCell g pos.2 pos.1 entity, true)

theorem place_tile_last {g : Grid} {target : TileType} {pt : List (Nat × Nat)}
    {q : Nat × Nat} (h : pt.getLast? = some q) :
    place_tile g target pt = some (setCell g q.1 q.2 target, pt.dropLast,
      decide (target = TileType.player)) := by
  unfold place_tile
  rw [h]

theorem cellAt_oob {g : Grid} {y x : Nat}
    (h : g.length ≤ y ∨ (g.getD y []).length ≤ x) :
    cellAt g y x = TileType.empty := by
  rcases h with h | h
  · have hrow : g.getD y [] = [] := by
      rw [List.getD_eq_getElem?_getD, List.getElem?_eq_none h]
      rfl
    unfold cellAt
    rw [hrow]
    simp
  · unfold cellAt
    rw [List.getD_eq_getElem?_getD, List.getElem?_eq_none h]
    rfl

theorem mem_of_getLast?_eq {α : Type} {l : List α} {a : α}
    (h : l.getLast? = some a) : a ∈ l := by
  obtain ⟨l2, rfl⟩ := List.getLast?_eq_some_iff.mp h
  simp

theorem nodup_last_not_mem {α : Type} {l : List α} {q : α}
    (hnd : l.Nodup) (hq : l.getLast? = some q) : q ∉ l.dropLast := by
  obtain ⟨l2, hl⟩ := List.getLast?_eq_some_iff.mp hq
  subst hl
  rw [List.dropLast_concat]
  intro hmem
  exact ((List.nodup_append.mp hnd).2.2 hmem) (by simp)

theorem mem_of_mem_dropLast {α : Type} {l : List α} {a : α}
    (h : a ∈ l.dropLast) : a ∈ l :=
  (List.dropLast_sublist l).subset h

/-- The invariant threading the placement phase: the grid `gc` differs from
the starting grid `g` only at popped FLOOR cells, the player sits exactly at
the first popped cell `p0`, and the remaining candidates are untouched
distinct in-bounds FLOOR cells not containing `p0`. -/
structure PlaceInv (g : Grid) (items : List (TileType × Nat)) (p0 : Nat × Nat)
    (gc : Grid) (ptc : List (Nat × Nat)) : Prop where
  shape : SameShape g gc
  player_at : cellAt gc p0.1 p0.2 = TileType.player
  player_only : ∀ y x, (y, x) ≠ p0 → cellAt gc y x ≠ TileType.player
  floors : ∀ p ∈ ptc, cellAt gc p.1 p.2 = TileType.floor
  nd : ptc.Nodup
  nomem : p0 ∉ ptc
  bounds : ∀ p ∈ ptc, p.1 < g.length ∧ p.2 < (g.getD p.1 []).length
  frame : ∀ y x, cellAt gc y x ≠ cellAt g y x →
    cellAt g y x = TileType.floor ∧
    (cellAt gc y x = TileType.player ∨ ∃ it ∈ items, cellAt gc y x = it.1)

theorem placeInv_stamp {g : Grid} {items : List (TileType × Nat)}
    {p0 : Nat × Nat} {tile : TileType} {gc : Grid} {ptc : List (Nat × Nat)}
    {q : Nat × Nat}
    (htile : ∃ it ∈ items, tile = it.1) (hnp : tile ≠ TileType.player)
    (hq : ptc.getLast? = some q) (hinv : PlaceInv g items p0 gc ptc) :
    PlaceInv g items p0 (setCell gc q.1 q.2 tile) ptc.dropLast := by
  have hqmem : q ∈ ptc := mem_of_getLast?_eq hq
  have hqb := hinv.bounds q hqmem
  have hqb1 : q.1 < gc.length := by rw [hinv.shape.1]; exact hqb.1
  have hqb2 : q.2 < (gc.getD q.1 []).length := by
    rw [hinv.shape.2 q.1]; exact hqb.2
  have hqne : q ≠ p0 := fun h => hinv.nomem (h ▸ hqmem)
  have hself : cellAt (setCell gc q.1 q.2 tile) q.1 q.2 = tile :=
    cellAt_setCell_self gc q.1 q.2 tile hqb1 hqb2
  refine ⟨sameShape_setCell hinv.shape q.1 q.2 tile, ?_, ?_, ?_, ?_, ?_, ?_, ?_⟩
  · rw [cellAt_setCell_ne gc q.1 q.2 tile p0.1 p0.2 (by
      intro h
      simp only [Prod.mk.injEq] at h
      exact hqne (Prod.ext h.1.symm h.2.symm))]
    exact hinv.player_at
  · intro y x hne
    by_cases hyx : (y, x) = (q.1, q.2)
    · simp only [Prod.mk.injEq] at hyx
      rw [hyx.1, hyx.2, hself]
      exact hnp
    · rw [cellAt_setCell_ne gc q.1 q.2 tile y x hyx]
      exact hinv.player_only y x hne
  · intro p hp
    have hpmem : p ∈ ptc := mem_of_mem_dropLast hp
    have hpne : p ≠ q := by
      intro h
      exact nodup_last_not_mem hinv.nd hq (h ▸ hp)
    rw [cellAt_setCell_ne gc q.1 q.2 tile p.1 p.2 (by
      intro h
      simp only [Prod.mk.injEq] at h
      exact hpne (Prod.ext h.1 h.2))]
    exact hinv.floors p hpmem
  · exact hinv.nd.sublist (List.dropLast_sublist ptc)
  · intro h
    exact hinv.nomem (mem_of_mem_dropLast h)
  · intro p hp
    exact hinv.bounds p (mem_of_mem_dropLast hp)
  · intro y x hne
    by_cases hyx : (y, x) = (q.1, q.2)
    · simp only [Prod.mk.injEq] at hyx
      obtain ⟨rfl, rfl⟩ := hyx
      constructor
      · by_cases hchg : cellAt gc q.1 q.2 = cellAt g q.1 q.2
        · rw [← hchg]
          exact hinv.floors q hqmem
        · exact (hinv.frame q.1 q.2 hchg).1
      · rw [hself]
        obtain ⟨it, hit, heq⟩ := htile
        exact Or.inr ⟨it, hit, heq⟩
    · rw [cellAt_setCell_ne gc q.1 q.2 tile y x hyx] at hne ⊢
      exact hinv.frame y x hne

theorem placeInv_init {g : Grid} {items : List (TileType × Nat)}
    {pt : List (Nat × Nat)} {p0 : Nat × Nat}
    (hfloor : ∀ p ∈ pt, cellAt g p.1 p.2 = TileType.floor)
    (hnd : pt.Nodup)
    (hbounds : ∀ p ∈ pt, p.1 < g.length ∧ p.2 < (g.getD p.1 []).length)
    (hplayer0 : ∀ y, y < g.length → ∀ x, x < (g.getD y []).length →
      cellAt g y x ≠ TileType.player)
    (hp0 : pt.getLast? = some p0) :
    PlaceInv g items p0 (setCell g p0.1 p0.2 TileType.player) pt.dropLast := by
  have hp0mem : p0 ∈ pt := mem_of_getLast?_eq hp0
  have hb := hbounds p0 hp0mem
  have hself : cellAt (setCell g p0.1 p0.2 TileType.player) p0.1 p0.2
      = TileType.player := cellAt_setCell_self g p0.1 p0.2 _ hb.1 hb.2
  refine ⟨sameShape_setCell ⟨rfl, fun j => rfl⟩ p0.1 p0.2 _, hself, ?_, ?_, ?_,
    ?_, ?_, ?_⟩
  · intro y x hne
    rw [cellAt_setCell_ne g p0.1 p0.2 _ y x (by
      intro h
      simp only [Prod.mk.injEq] at h
      exact hne (Prod.ext h.1 h.2))]
    by_cases hy : y < g.length
    · by_cases hx : x < (g.getD y []).length
      · exact hplayer0 y hy x hx
      · rw [cellAt_oob (Or.inr (Nat.le_of_not_lt hx))]
        intro hcontra
        cases hcontra
    · rw [cellAt_oob (Or.inl (Nat.le_of_not_lt hy))]
      intro hcontra
      cases hcontra
  · intro p hp
    have hpne : p ≠ p0 := by
      intro h
      exact nodup_last_not_mem hnd hp0 (h ▸ hp)
    rw [cellAt_setCell_ne g p0.1 p0.2 _ p.1 p.2 (by
      intro h
      simp only [Prod.mk.injEq] at h
      exact hpne (Prod.ext h.1 h.2))]
    exact hfloor p (mem_of_mem_dropLast hp)
  · exact hnd.sublist (List.dropLast_sublist pt)
  · exact nodup_last_not_mem hnd hp0
  · intro p hp
    exact hbounds p (mem_of_mem_dropLast hp)
  · intro y x hne
    by_cases hyx : (y, x) = (p0.1, p0.2)
    · simp only [Prod.mk.injEq] at hyx
      obtain ⟨rfl, rfl⟩ := hyx
      refine ⟨hfloor p0 hp0mem, Or.inl hself⟩
    · rw [cellAt_setCell_ne g p0.1 p0.2 _ y x hyx] at hne
      exact absurd rfl hne

theorem itemLoop_inv {g : Grid} {items : List (TileType × Nat)}
    {p0 : Nat × Nat} {tile : TileType} {count : Nat}
    (htile : ∃ it ∈ items, tile = it.1) (hnp : tile ≠ TileType.player) :
    ∀ (fuel tilesPlaced tries : Nat) (gc : Grid) (ptc : List (Nat × Nat))
      (out : Grid × List (Nat × Nat)),
      PlaceInv g items p0 gc ptc →
      itemLoop tile count fuel tilesPlaced tries gc ptc = some out →
      PlaceInv g items p0 out.1 out.2 := by
  intro fuel
  induction fuel with
  | zero =>
    intro _ _ _ _ out _ h
    cases h
  | succ n ih =>
    intro tilesPlaced tries gc ptc out hinv h
    simp only [itemLoop] at h
    split_ifs at h with hcond
    · rcases hq : ptc.getLast? with _ | q
      · have hnone : place_tile gc tile ptc = none := by
          unfold place_tile
          rw [hq]
        simp only [hnone] at h
        cases h
      · have hdec : decide (tile = TileType.player) = false := by
          simp [hnp]
        rw [place_tile_last hq, hdec] at h
        simp only [Bool.false_eq_true, if_false] at h
        exact ih tilesPlaced (tries - 1) _ _ out
          (placeInv_stamp htile hnp hq hinv) h
    · cases h
      exact hinv

theorem items_fold_inv {g : Grid} {items : List (TileType × Nat)}
    {p0 : Nat × Nat} (tries fuel : Nat)
    (hitems : ∀ it ∈ items, it.1 ≠ TileType.player) :
    ∀ (l : List (TileType × Nat)) (st out : Grid × List (Nat × Nat)),
      (∀ it ∈ l, it ∈ items) →
      PlaceInv g items p0 st.1 st.2 →
      l.foldlM (fun st it => itemLoop it.1 it.2 fuel 0 tries st.1 st.2) st
        = some out →
      PlaceInv g items p0 out.1 out.2 := by
  intro l
  induction l with
  | nil =>
    intro st out _ hinv h
    cases h
    exact hinv
  | cons it rest ih =>
    intro st out hsub hinv h
    rw [List.foldlM_cons] at h
    rcases hstep : itemLoop it.1 it.2 fuel 0 tries st.1 st.2 with _ | st2
    · rw [hstep] at h
      cases h
    · rw [hstep] at h
      simp only [Option.bind_eq_bind, Option.some_bind] at h
      have hit : it ∈ items := hsub it (List.mem_cons_self _ _)
      have hinv2 : PlaceInv g items p0 st2.1 st2.2 :=
        itemLoop_inv ⟨it, hit, rfl⟩ (hitems it hit) fuel 0 tries st.1 st.2 st2
          hinv hstep
      exact ih st2 out (fun it2 hit2 => hsub it2 (List.mem_cons_of_mem _ hit2))
        hinv2 h

/-- C1: placement legality across both generations of the placement code.
For the new `create_map` phase (`src/src/hades/generation/map.py`): on any
grid with no PLAYER tile whose candidate list holds distinct in-bounds FLOOR
cells, a successful run stamps the PLAYER at exactly one cell (the first
popped candidate) and nowhere else, and every changed cell was a FLOOR cell
immediately before its (unique) stamp and now holds the PLAYER or an item
type — so no two placed entities share a cell.  For the old
`Map._place_tile` (`src/game/generation/map.py`): a successful enemy
placement with squared safe radius `R^2` targets a FLOOR cell and the
stamped enemy lies at Euclidean distance at least `R` from the player. -/
theorem C1_placement_legality
    (g gf : Grid) (pt ptf : List (Nat × Nat)) (items : List (TileType × Nat))
    (tries fuel : Nat)
    (gold g2old : Grid) (entity : TileType) (ppos posB : Nat × Nat) (R : Int)
    (hfloor : ∀ p ∈ pt, cellAt g p.1 p.2 = TileType.floor)
    (hnd : pt.Nodup)
    (hbounds : ∀ p ∈ pt, p.1 < g.length ∧ p.2 < (g.getD p.1 []).length)
    (hplayer0 : ∀ y, y < g.length → ∀ x, x < (g.getD y []).length →
      cellAt g y x ≠ TileType.player)
    (hitems : ∀ it ∈ items, it.1 ≠ TileType.player)
    (hrun : placementPhase g pt items tries fuel = some (gf, ptf))
    (hR : 0 ≤ R)
    (hold : place_tile_old gold true entity ppos (R ^ 2) posB = (g2old, true)) :
    (∃ p0, pt.getLast? = some p0 ∧
      cellAt gf p0.1 p0.2 = TileType.player ∧
      (∀ y x, (y, x) ≠ p0 → cellAt gf y x ≠ TileType.player) ∧
      (∀ y x, cellAt gf y x ≠ cellAt g y x →
        cellAt g y x = TileType.floor ∧
        (cellAt gf y x = TileType.player ∨
          ∃ it ∈ items, cellAt gf y x = it.1))) ∧
    cellAt gold posB.2 posB.1 = TileType.floor ∧
    g2old = setCell gold posB.2 posB.1 entity ∧
    (R : ℝ) ≤
      Real.sqrt (((ppos.1 : ℝ) - posB.1) ^ 2 + ((ppos.2 : ℝ) - posB.2) ^ 2) := by
  constructor
  · unfold placementPhase at hrun
    split at hrun
    · cases hrun
    · rename_i g2 pt2 b hpl
      unfold place_tile at hpl
      split at hpl
      · cases hpl
      · rename_i p0 hlast
        simp only [Option.some.injEq, Prod.mk.injEq] at hpl
        obtain ⟨hg2, hpt2, hb⟩ := hpl
        have hinv0 : PlaceInv g items p0 (setCell g p0.1 p0.2 TileType.player)
            pt.dropLast := placeInv_init hfloor hnd hbounds hplayer0 hlast
        rw [hg2, hpt2] at hinv0
        have hfin := items_fold_inv tries fuel hitems items (g2, pt2) (gf, ptf)
          (fun it h => h) hinv0 hrun
        exact ⟨p0, hlast, hfin.player_at, hfin.player_only, hfin.frame⟩
  · unfold place_tile_old at hold
    split_ifs at hold with h1 h2
    · simp only [Prod.mk.injEq] at hold
      exact absurd hold.2 (by simp)
    · simp only [Prod.mk.injEq] at hold
      exact absurd hold.2 (by simp)
    · simp only [Prod.mk.injEq] at hold
      push_neg at h2
      refine ⟨h2, hold.1.symm, ?_⟩
      have hsq : R ^ 2 ≤
          ((ppos.1 : Int) - posB.1) ^ 2 + ((ppos.2 : Int) - posB.2) ^ 2 := by
        rcases lt_or_le
          (((ppos.1 : Int) - posB.1) ^ 2 + ((ppos.2 : Int) - posB.2) ^ 2)
          (R ^ 2) with hlt | hge
        · exact absurd ⟨rfl, hlt⟩ h1
        · exact hge
      have hRR : (0 : ℝ) ≤ (R : ℝ) := by exact_mod_cast hR
      have hs0 : (0 : ℝ) ≤
          ((ppos.1 : ℝ) - posB.1) ^ 2 + ((ppos.2 : ℝ) - posB.2) ^ 2 := by
        positivity
      rw [Real.le_sqrt hRR hs0]
      exact_mod_cast hsq

/-- The concrete inputs of the C1 witness. -/
def c1Grid : Grid :=
  [[TileType.floor, TileType.floor], [TileType.floor, TileType.floor]]

def c1Pt : List (Nat × Nat) := [(0, 0), (0, 1), (1, 0)]

def c1Items : List (TileType × Nat) := [(TileType.health_potion, 1)]

def c1Final : Grid :=
  [[TileType.health_potion, TileType.health_potion],
   [TileType.player, TileType.floor]]

def c1Gold : Grid := [[TileType.floor]]

/-- C1 witness: the theorem applied to a concrete 2-by-2 all-FLOOR grid with
three shuffled candidates and one health potion to place, and to a concrete
old-style enemy placement at distance 5 with safe radius 3. -/
theorem C1_witness :
    (∀ p ∈ c1Pt, cellAt c1Grid p.1 p.2 = TileType.floor) ∧
    c1Pt.Nodup ∧
    (∀ p ∈ c1Pt, p.1 < c1Grid.length ∧ p.2 < (c1Grid.getD p.1 []).length) ∧
    (∀ y, y < c1Grid.length → ∀ x, x < (c1Grid.getD y []).length →
      cellAt c1Grid y x ≠ TileType.player) ∧
    (∀ it ∈ c1Items, it.1 ≠ TileType.player) ∧
    placementPhase c1Grid c1Pt c1Items 2 5 = some (c1Final, []) ∧
    (0 : Int) ≤ 3 ∧
    place_tile_old c1Gold true TileType.enemy_1 (5, 0) (3 ^ 2) (0, 0)
      = (setCell c1Gold 0 0 TileType.enemy_1, true) ∧
    ((∃ p0, c1Pt.getLast? = some p0 ∧
      cellAt c1Final p0.1 p0.2 = TileType.player ∧
      (∀ y x, (y, x) ≠ p0 → cellAt c1Final y x ≠ TileType.player) ∧
      (∀ y x, cellAt c1Final y x ≠ cellAt c1Grid y x →
        cellAt c1Grid y x = TileType.floor ∧
        (cellAt c1Final y x = TileType.player ∨
          ∃ it ∈ c1Items, cellAt c1Final y x = it.1))) ∧
    cellAt c1Gold 0 0 = TileType.floor ∧
    setCell c1Gold 0 0 TileType.enemy_1 = setCell c1Gold 0 0 TileType.enemy_1 ∧
    (3 : ℝ) ≤ Real.sqrt
      ((((5 : Nat) : ℝ) - ((0 : Nat) : ℝ)) ^ 2 +
        (((0 : Nat) : ℝ) - ((0 : Nat) : ℝ)) ^ 2)) :=
  ⟨by decide, by decide, by decide, by decide, by decide, by decide, by decide,
   by decide,
   C1_placement_legality c1Grid c1Final c1Pt [] c1Items 2 5 c1Gold
     (setCell c1Gold 0 0 TileType.enemy_1) TileType.enemy_1 (5, 0) (0, 0) 3
     (by decide) (by decide) (by decide) (by decide) (by decide) (by decide)
     (by decide) (by decide)⟩

end Hades
